import Mathlib

/-!
# Telemetry processor (`telemetry_redis/app/processor.cpp`)

A shallow embedding of `compute_stats`, `process_key`, `process_all_files_sync` and the
run-state handling of the HTTP trigger, followed by theorems about them.

Modelling conventions.

* Two models of `double` arithmetic are given.  In the first a finite `double` is a rational
  number and all arithmetic is exact; `NAN` in a `Stats` field is `none`.  The general
  theorems are about this model, and those whose truth depends on the arithmetic say "in exact
  arithmetic".  In the second (`Dbl`, `compute_stats64`) every operation is rounded as IEEE 754
  binary64 prescribes, with infinities, NaN and subnormal numbers and without fused
  multiply-add; it is evaluated on the inputs where rounding, overflow or underflow decide the
  outcome.
* `std::sqrt` and the FFTW real-to-complex transform are external numeric routines; they are
  the fields of `NumericLib`, together with the outcome of the two `fftw_malloc` calls.
* `std::sort` is modelled by a stable insertion sort (what libstdc++ runs on ranges of at most
  16 elements); the C++ standard leaves the relative order of equivalent elements open.
* `std::lower_bound` is the library binary search, transcribed with a fuel argument equal to
  the range length.
* A stored byte string is represented by what `json::parse` makes of it: either text that the
  parser rejects, or the JSON value it denotes; `dump` yields the payload denoting its value.
* The store is a map from keys to payloads; exceptions of the store client are not modelled.
  The scheduler pass is the sequential one, over the list of keys the store enumerates.
* The run state is a transition system whose steps are the `POST /run` handler (one critical
  section) and the start and the end of a worker thread.
-/

namespace Telemetry

/-! ## JSON values -/

/-- Values of `nlohmann::json`.  `num` is a number (integer, unsigned or float) with a finite
value, `nonfinite` a float that is NaN or infinite. -/
inductive Json where
  | null
  | bool (b : Bool)
  | num (x : ℚ)
  | nonfinite
  | str (s : String)
  | arr (items : List Json)
  | obj (fields : List (String × Json))

/-- Member test `m.contains(key)`: false on anything that is not an object. -/
def Json.contains : Json → String → Bool
  | .obj fields, key => (fields.lookup key).isSome
  | _, _ => false

/-- Member access `m.at(key)`; `none` stands for the exception it throws. -/
def Json.at_ : Json → String → Option Json
  | .obj fields, key => fields.lookup key
  | _, _ => none

/-- Conversion `get<double>()`: the outer `none` is the `type_error` thrown on a value that is
not a number, the inner `none` a double that is not finite. -/
def Json.get_double : Json → Option (Option ℚ)
  | .num x => some (some x)
  | .nonfinite => some none
  | _ => none

/-- Test `is_array()`. -/
def Json.is_array : Json → Bool
  | .arr _ => true
  | _ => false

/-- Insertion into the key-ordered member list of an object (`std::map`). -/
def setField : List (String × Json) → String → Json → List (String × Json)
  | [], key, v => [(key, v)]
  | (k, w) :: rest, key, v =>
    if key = k then (key, v) :: rest
    else if key < k then (key, v) :: (k, w) :: rest
    else (k, w) :: setField rest key v

/-- Assignment `j[key] = v`: a null value becomes an object first. -/
def Json.set : Json → String → Json → Json
  | .obj fields, key, v => .obj (setField fields key v)
  | .null, key, v => .obj [(key, v)]
  | j, _, _ => j

/-! ## External numeric routines -/

/-- The numeric routines `compute_stats` calls but does not define. -/
structure NumericLib where
  /-- `std::sqrt` on doubles. -/
  sqrt : ℚ → ℚ
  /-- `std::sqrt` returns a non-negative result on a non-negative argument. -/
  sqrt_nonneg : ∀ x : ℚ, 0 ≤ x → 0 ≤ sqrt x
  /-- `std::sqrt` of zero is zero. -/
  sqrt_zero : sqrt 0 = 0
  /-- Bin `k` (real part, imaginary part) of `fftw_plan_dft_r2c_1d` executed on the input. -/
  r2c : List ℚ → ℕ → ℚ × ℚ
  /-- Whether `fftw_malloc` returned a buffer for `in`. -/
  malloc_in : Bool
  /-- Whether `fftw_malloc` returned a buffer for `out`. -/
  malloc_out : Bool

/-! ## `compute_stats` -/

structure Stats where
  dominant_freq_hz : Option ℚ
  spectrum : List ℚ
  mean : Option ℚ
  std_dev : Option ℚ
  min : Option ℚ
  max : Option ℚ

/-- The initial `Stats s`: every number `NAN`, empty spectrum. -/
def Stats.undefined : Stats := ⟨none, [], none, none, none, none⟩

/-- Body of the extraction loop for one record: the `(v, t)` pushed onto `values` and
`times`, or `none` when the record is skipped (`continue`, a caught exception, or a value
that is not finite). -/
def extract_one (key : String) (m : Json) : Option (ℚ × ℚ) :=
  if !m.contains key || !m.contains "timestamp" then none
  else
    match (m.at_ key).bind Json.get_double with
    | none => none
    | some v =>
      match (m.at_ "timestamp").bind Json.get_double with
      | none => none
      | some t =>
        match v, t with
        | some v, some t => some (v, t)
        | _, _ => none

/-- The pairs `(v, t)` pushed by the extraction loop, in order: the Sample Series. -/
def samples (messages : List Json) (key : String) : List (ℚ × ℚ) :=
  messages.filterMap (extract_one key)

/-- The vector `values` after the extraction loop. -/
def extract_values (messages : List Json) (key : String) : List ℚ :=
  (samples messages key).map Prod.fst

/-- The vector `times` after the extraction loop. -/
def extract_times (messages : List Json) (key : String) : List ℚ :=
  (samples messages key).map Prod.snd

/-- Library sort `std::sort(first, last, comp)`. -/
def std_sort {α : Type} (comp : α → α → Bool) (l : List α) : List α :=
  l.insertionSort (fun a b => comp b a = false)

/-- The index vector `idx` after sorting by time. -/
def sorted_idx (times : List ℚ) : List ℕ :=
  std_sort (fun a b => decide (times.getD a 0 < times.getD b 0)) (List.range times.length)

/-- The vector `t_sorted` after the time origin has been moved to its first entry. -/
def t_sorted (times : List ℚ) : List ℚ :=
  let ts := (sorted_idx times).map (fun (i : ℕ) => times.getD i 0)
  ts.map (fun tt => tt - ts.headD 0)

/-- The vector `v_sorted`. -/
def v_sorted (values times : List ℚ) : List ℚ :=
  (sorted_idx times).map (fun (i : ℕ) => values.getD i 0)

/-- The grid end `tmax`, replaced by `1e-6` when it is not positive. -/
def grid_tmax (ts : List ℚ) : ℚ :=
  let tmax := ts.getLastD 0
  if tmax ≤ 0 then 1 / 1000000 else tmax

/-- The vector `uniform_t`. -/
def uniform_t (ts : List ℚ) : List ℚ :=
  let N := ts.length
  (List.range N).map (fun (i : ℕ) => (grid_tmax ts * (i : ℚ)) / ((N - 1 : ℕ) : ℚ))

/-- Loop of `std::lower_bound` on the range `[first, first + len)` of `t`. -/
def lower_bound_loop (t : List ℚ) (val : ℚ) : ℕ → ℕ → ℕ → ℕ
  | 0, first, _ => first
  | fuel + 1, first, len =>
    if len = 0 then first
    else
      let half := len / 2
      let middle := first + half
      if t.getD middle 0 < val then
        lower_bound_loop t val fuel (middle + 1) (len - half - 1)
      else
        lower_bound_loop t val fuel first half

/-- Position returned by `std::lower_bound(t.begin(), t.end(), val)`, as an offset. -/
def lower_bound (t : List ℚ) (val : ℚ) : ℕ :=
  lower_bound_loop t val t.length 0 t.length

/-- Body of the interpolation loop: the value stored in `v_interp[i]` for `tt = uniform_t[i]`. -/
def interp_at (ts vs : List ℚ) (tt : ℚ) : ℚ :=
  let j := lower_bound ts tt
  if j = 0 then vs.headD 0
  else if j = ts.length then vs.getLastD 0
  else
    let j0 := j - 1
    let t0_ := ts.getD j0 0
    let t1_ := ts.getD j 0
    let v0_ := vs.getD j0 0
    let v1_ := vs.getD j 0
    let alpha := (tt - t0_) / (t1_ - t0_)
    v0_ + alpha * (v1_ - v0_)

/-- The vector `v_interp`. -/
def v_interp (ts vs : List ℚ) : List ℚ :=
  (uniform_t ts).map (interp_at ts vs)

/-- The resampling step of `compute_stats` (sort, rebase, grid, interpolate) on the extracted
vectors: the Uniform Series. -/
def resample (values times : List ℚ) : List ℚ :=
  v_interp (t_sorted times) (v_sorted values times)

/-- Accumulator `sum` after the statistics loop. -/
def stat_sum (vi : List ℚ) : ℚ := vi.foldl (fun s x => s + x) 0

/-- Accumulator `sumsq` after the statistics loop. -/
def stat_sumsq (vi : List ℚ) : ℚ := vi.foldl (fun s x => s + x * x) 0

/-- Running minimum `vmin` after the statistics loop. -/
def stat_vmin (vi : List ℚ) : ℚ := vi.foldl (fun m x => if x < m then x else m) (vi.headD 0)

/-- Running maximum `vmax` after the statistics loop. -/
def stat_vmax (vi : List ℚ) : ℚ := vi.foldl (fun m x => if x > m then x else m) (vi.headD 0)

/-- The local `mean`. -/
def stat_mean (vi : List ℚ) : ℚ := stat_sum vi / (vi.length : ℚ)

/-- The local `var`. -/
def stat_var (vi : List ℚ) : ℚ :=
  stat_sumsq vi / (vi.length : ℚ) - stat_mean vi * stat_mean vi

/-- The local `stddev`. -/
def stat_stddev (L : NumericLib) (vi : List ℚ) : ℚ :=
  if stat_var vi > 0 then L.sqrt (stat_var vi) else 0

/-- The local `denom` of the normalization. -/
def norm_denom (L : NumericLib) (vi : List ℚ) : ℚ :=
  L.sqrt (stat_stddev L vi * stat_stddev L vi) + 1 / 1000000000000

/-- The vector `signal`. -/
def signal (L : NumericLib) (vi : List ℚ) : List ℚ :=
  vi.map (fun x => (x - stat_mean vi) / norm_denom L vi)

/-- The local `dt`, for the grid `ut` and `M` points. -/
def grid_dt (ut : List ℚ) (M : ℕ) : ℚ :=
  if M > 1 then ut.getD 1 0 - ut.getD 0 0 else 1

/-- The vector `mags` for the transform of `sig`, `M = sig.length`. -/
def mags (L : NumericLib) (sig : List ℚ) : List ℚ :=
  (List.range (sig.length / 2 + 1)).map
    (fun (k : ℕ) => L.sqrt ((L.r2c sig k).1 * (L.r2c sig k).1 + (L.r2c sig k).2 * (L.r2c sig k).2))

/-- The vector `freqs`. -/
def freqs (dt : ℚ) (M : ℕ) : List ℚ :=
  (List.range (M / 2 + 1)).map (fun (k : ℕ) => (k : ℚ) / (dt * (M : ℚ)))

/-- One iteration of the dominant-bin loop on the pair `(maxmag, maxidx)`. -/
def dominant_step (ms : List ℚ) (st : ℚ × ℕ) (k : ℕ) : ℚ × ℕ :=
  if ms.getD k 0 > st.1 then (ms.getD k 0, k) else st

/-- The pair `(maxmag, maxidx)` after the loop `for k = 1 .. mags.size() - 1`. -/
def dominant_loop (ms : List ℚ) : ℚ × ℕ :=
  ((List.range (ms.length - 1)).map (fun (i : ℕ) => i + 1)).foldl (dominant_step ms) (-1, 0)

/-- The value assigned to `s.dominant_freq_hz`. -/
def dominant_freq (ms fs : List ℚ) : Option ℚ :=
  if ms.length > 1 then some (fs.getD (dominant_loop ms).2 0) else none

/-- The vector assigned to `s.spectrum`. -/
def spectrum_take (ms : List ℚ) : List ℚ :=
  ms.take (Nat.min 10 ms.length)

/-- The function `compute_stats`. -/
def compute_stats (L : NumericLib) (messages : List Json) (key : String) : Stats :=
  let values := extract_values messages key
  let times := extract_times messages key
  if values.length < 2 then Stats.undefined
  else
    let ut := uniform_t (t_sorted times)
    let vi := resample values times
    let s : Stats :=
      { Stats.undefined with
        mean := some (stat_mean vi)
        std_dev := some (stat_stddev L vi)
        min := some (stat_vmin vi)
        max := some (stat_vmax vi) }
    if !L.malloc_in || !L.malloc_out then s
    else
      let sig := signal L vi
      let ms := mags L sig
      let fs := freqs (grid_dt ut sig.length) sig.length
      { s with
        dominant_freq_hz := dominant_freq ms fs
        spectrum := spectrum_take ms }

/-! ## `process_key` and the scheduler pass -/

/-- A stored byte string, by what `json::parse` makes of it. -/
inductive Payload where
  | text (s : String)
  | json (j : Json)

/-- Parser `json::parse`; `none` is the `parse_error` it throws. -/
def Payload.parse : Payload → Option Json
  | .text _ => none
  | .json j => some j

/-- Serializer `dump()`. -/
def Json.dump (j : Json) : Payload := .json j

/-- The key-value store: the payload under each key, if any. -/
abbrev Store := String → Option Payload

/-- Store read `redis.get(k)`. -/
def Store.get (s : Store) (k : String) : Option Payload := s k

/-- Store write `redis.set(k, v)`. -/
def Store.set (s : Store) (k : String) (v : Payload) : Store :=
  fun k' => if k' = k then some v else s k'

/-- A `double` as JSON, `null` when it is `NAN`. -/
def num_or_null : Option ℚ → Json
  | some x => .num x
  | none => .null

/-- The lambda `fill_stats`. -/
def fill_stats (st : Stats) : Json :=
  let j := Json.null
  let j := j.set "dominant_freq_hz" (num_or_null st.dominant_freq_hz)
  let j := j.set "spectrum" (.arr (st.spectrum.map Json.num))
  let j := j.set "mean" (num_or_null st.mean)
  let j := j.set "std_dev" (num_or_null st.std_dev)
  let j := j.set "min" (num_or_null st.min)
  let j := j.set "max" (num_or_null st.max)
  j

/-- The JSON value `out` that `process_key` builds from the records of a batch. -/
def result_record (L : NumericLib) (messages : List Json) : Json :=
  let out := Json.null
  let out := out.set "vehicle_count" (.obj [])
  let out := out.set "avg_speed" (.obj [])
  let out := out.set "occupancy" (.obj [])
  let sc := compute_stats L messages "vehicle_count"
  let ss := compute_stats L messages "avg_speed"
  let so := compute_stats L messages "occupancy"
  let out := out.set "vehicle_count" (fill_stats sc)
  let out := out.set "avg_speed" (fill_stats ss)
  let out := out.set "occupancy" (fill_stats so)
  out

/-- The function `process_key`, as a store transformer. -/
def process_key (L : NumericLib) (store : Store) (k : String) : Store :=
  match store.get k with
  | none => store
  | some raw =>
    match raw.parse with
    | none => store
    | some a =>
      match a with
      | .arr items => store.set (k ++ "_processed") (result_record L items).dump
      | _ => store

/-- Whether a key is listed by `redis.keys("telemetry_*")`. -/
def matches_pattern (k : String) : Bool :=
  "telemetry_".data.isPrefixOf k.data

/-- The function `process_all_files_sync` in sequential mode, on the listed keys. -/
def process_all_files_sync (L : NumericLib) (keys : List String) (store : Store) : Store :=
  if keys.isEmpty then store else keys.foldl (process_key L) store

/-! ## Run state -/

/-- The values of `g_status`. -/
inductive Status where
  | idle
  | processing
  | done
  deriving DecidableEq, Repr

/-- The run state: `g_status`, the worker threads created by the trigger handler that have not
yet entered `process_all_files_http`, and those that are inside it. -/
structure RunState where
  status : Status
  launched : ℕ
  running : ℕ
  deriving DecidableEq, Repr

/-- State of a fresh process. -/
def RunState.init : RunState := ⟨.idle, 0, 0⟩

/-- Scheduler passes in flight: worker threads created and not yet finished. -/
def RunState.in_flight (s : RunState) : ℕ := s.launched + s.running

/-- The two response bodies of `POST /run`. -/
inductive Response where
  | processing
  | processing_started
  deriving DecidableEq, Repr

/-- The handler of `POST /run`: the new state and the response. -/
def trigger (s : RunState) : RunState × Response :=
  if s.status = .processing then (s, .processing)
  else ({ s with status := .processing, launched := s.launched + 1 }, .processing_started)

/-- A created worker thread enters `process_all_files_http` and sets the status. -/
def worker_start (s : RunState) : Option RunState :=
  if s.launched = 0 then none
  else some { status := .processing, launched := s.launched - 1, running := s.running + 1 }

/-- A worker thread leaves `process_all_files_http` after setting the status to `done`. -/
def worker_finish (s : RunState) : Option RunState :=
  if s.running = 0 then none
  else some { s with status := .done, running := s.running - 1 }

/-- One step of the run-state machine. -/
inductive Step : RunState → RunState → Prop where
  | trigger (s : RunState) : Step s (trigger s).1
  | worker_start (s s' : RunState) (h : worker_start s = some s') : Step s s'
  | worker_finish (s s' : RunState) (h : worker_finish s = some s') : Step s s'

/-- States reachable from the initial state. -/
inductive Reachable : RunState → Prop where
  | init : Reachable RunState.init
  | step (s s' : RunState) (hs : Reachable s) (h : Step s s') : Reachable s'

/-! ## Definitions used in the statements -/

/-- A record is valid for a metric when it has both the metric field and `timestamp`, each a
number with a finite value (the wording of the data model, to compare with `extract_one`). -/
def valid_record (key : String) (m : Json) : Bool :=
  match m.at_ key, m.at_ "timestamp" with
  | some (.num _), some (.num _) => true
  | _, _ => false

/-- Entries of `t` do not decrease with the index. -/
def Ascending (t : List ℚ) : Prop :=
  ∀ i j : ℕ, i ≤ j → j < t.length → t.getD i 0 ≤ t.getD j 0

/-- The order in which `std_sort` with the comparison of `compute_stats` leaves two
`(value, time)` pairs. -/
def time_le (a b : ℚ × ℚ) : Prop := decide (b.2 < a.2) = false

instance : DecidableRel time_le := fun a b => by
  unfold time_le
  infer_instance

instance : IsTotal (ℚ × ℚ) time_le :=
  ⟨fun a b => by
    simp only [time_le, decide_eq_false_iff_not, not_lt]
    exact le_total _ _⟩

instance : IsTrans (ℚ × ℚ) time_le :=
  ⟨fun a b c h1 h2 => by
    simp only [time_le, decide_eq_false_iff_not, not_lt] at *
    exact le_trans h1 h2⟩

/-- The Uniform Series `v_interp` that `compute_stats` builds for a batch and a metric. -/
def uniform_series (messages : List Json) (key : String) : List ℚ :=
  resample (extract_values messages key) (extract_times messages key)

/-- The vector `mags` that `compute_stats` builds for a batch and a metric. -/
def magnitudes (L : NumericLib) (messages : List Json) (key : String) : List ℚ :=
  mags L (signal L (uniform_series messages key))

/-- The spacing of the first two grid points of `uniform_t` for a batch and a metric. -/
def grid_spacing (messages : List Json) (key : String) : ℚ :=
  (uniform_t (t_sorted (extract_times messages key))).getD 1 0 -
    (uniform_t (t_sorted (extract_times messages key))).getD 0 0

/-- The vector `t_sorted` as the sort leaves it, before the time origin is moved. -/
def sorted_times (times : List ℚ) : List ℚ :=
  (sorted_idx times).map (fun (i : ℕ) => times.getD i 0)

/-- Whether a payload read from the store is a batch: it parses to an array. -/
def holds_batch : Option Payload → Bool
  | some (.json (.arr _)) => true
  | _ => false

/-- The payload `process_key` writes for the payload it reads, if it writes one. -/
def write_of (L : NumericLib) : Option Payload → Option Payload
  | some (.json (.arr items)) => some (result_record L items).dump
  | _ => none

/-- Among the listed keys, none that is another listed key followed by `_processed` holds a
batch. -/
def no_batch_at_outputs (keys : List String) (s : Store) : Prop :=
  ∀ x ∈ keys, ∀ y ∈ keys, x = y ++ "_processed" → holds_batch (s x) = false

/-! ## A concrete numeric library, concrete batches and stores, for evaluating the model -/

/-- Bhaskara's rational approximation of the sine of `x` degrees, `0 ≤ x ≤ 180`. -/
def sin_deg (x : ℚ) : ℚ := 4 * x * (180 - x) / (40500 - x * (180 - x))

/-- Approximate sine of `θ` turns. -/
def sin_turn (θ : ℚ) : ℚ :=
  let f := θ - ⌊θ⌋
  if f ≤ 1 / 2 then sin_deg (360 * f) else -sin_deg (360 * (f - 1 / 2))

/-- Approximate cosine of `θ` turns. -/
def cos_turn (θ : ℚ) : ℚ := sin_turn (θ + 1 / 4)

/-- Bin `k` of the discrete Fourier transform of a real signal, with the approximate
trigonometric functions above. -/
def dft_bin (sig : List ℚ) (k : ℕ) : ℚ × ℚ :=
  let M := sig.length
  let re := (List.range M).map
    (fun (j : ℕ) => sig.getD j 0 * cos_turn (((j * k : ℕ) : ℚ) / (M : ℚ)))
  let im := (List.range M).map
    (fun (j : ℕ) => -(sig.getD j 0 * sin_turn (((j * k : ℕ) : ℚ) / (M : ℚ))))
  (re.sum, im.sum)

/-- A numeric library: the square root taken on the integer square roots of numerator and
denominator, the approximate transform above, and successful buffer allocation. -/
def refLib : NumericLib :=
  { sqrt := Rat.sqrt
    sqrt_nonneg := fun x _ => Rat.sqrt_nonneg x
    sqrt_zero := by simp [Rat.sqrt]
    r2c := dft_bin
    malloc_in := true
    malloc_out := true }

/-- A record with a `vehicle_count` of `v` at time `t`. -/
def count_record (v t : ℚ) : Json :=
  .obj [("timestamp", .num t), ("vehicle_count", .num v)]

/-- A batch of four `vehicle_count` records at times 0, 1, 2, 3. -/
def count_batch : List Json :=
  [count_record 1 0, count_record 5 1, count_record 2 2, count_record 4 3]

/-- A batch of three `vehicle_count` records with the same count. -/
def steady_batch : List Json :=
  [count_record 3 0, count_record 3 1, count_record 3 5]

/-- A batch of three `vehicle_count` records, two of them with the same timestamp. -/
def tied_batch : List Json :=
  [count_record 1 7, count_record 5 7, count_record 2 9]

/-- A store holding an empty batch under `telemetry_x` and another empty batch under
`telemetry_x_processed`. -/
def aliased_store : Store := fun k =>
  if k = "telemetry_x" then some (.json (.arr []))
  else if k = "telemetry_x_processed" then some (.json (.arr []))
  else none

/-- A store holding one batch of four records under `telemetry_1`. -/
def one_batch_store : Store := fun k =>
  if k = "telemetry_1" then some (.json (.arr count_batch)) else none

/-- A store after a first pass: a batch under `telemetry_1` and an object under
`telemetry_1_processed`. -/
def second_pass_store : Store := fun k =>
  if k = "telemetry_1" then some (.json (.arr count_batch))
  else if k = "telemetry_1_processed" then some (.json (.obj []))
  else none


/-! ## IEEE 754 binary64 arithmetic -/

/-- A `double`: a finite value (a rational of the form `m * 2 ^ e` that binary64 holds), the
two infinities, or NaN.  The two zeros are not told apart. -/
inductive Dbl where
  | fin (q : ℚ)
  | pinf
  | ninf
  | nan
  deriving DecidableEq

/-- Whether `n / d < 2 ^ e`, for `d > 0`. -/
def below_pow2 (n d : ℕ) (e : ℤ) : Bool :=
  if 0 ≤ e then decide (n < d * 2 ^ e.toNat) else decide (n * 2 ^ (-e).toNat < d)

/-- Number of halvings that bring `n` below 2, at most `fuel` of them. -/
def halvings : ℕ → ℕ → ℕ
  | 0, _ => 0
  | fuel + 1, n => if n < 2 then 0 else halvings fuel (n / 2) + 1

/-- Exponent `⌊log₂ n⌋` of a positive integer. -/
def ilog2 (n : ℕ) : ℕ := halvings n n

/-- Exponent `⌊log₂ (n / d)⌋` of a positive rational. -/
def exponent_of (n d : ℕ) : ℤ :=
  let e : ℤ := Int.ofNat (ilog2 n) - Int.ofNat (ilog2 d)
  if below_pow2 n d e then e - 1 else e

/-- Quotient `N / D` rounded to the nearest integer, ties to the even one. -/
def nearest_even (N D : ℕ) : ℕ :=
  let f := N / D
  let r := N % D
  if 2 * r < D then f
  else if D < 2 * r then f + 1
  else if f % 2 = 0 then f else f + 1

/-- Rounding of a real (rational) result to binary64, to nearest with ties to even: 53
significant bits, least exponent `-1074` (subnormal numbers), overflow to infinity from
`2 ^ 1024` on. -/
def round64 (q : ℚ) : Dbl :=
  if q.num = 0 then .fin 0
  else
    let n := q.num.natAbs
    let d := q.den
    let u : ℤ := max (exponent_of n d - 52) (-1074)
    if 0 ≤ u then
      let r := nearest_even n (d * 2 ^ u.toNat)
      if 2 ^ 1024 ≤ r * 2 ^ u.toNat then (if 0 < q.num then .pinf else .ninf)
      else .fin (if 0 < q.num then Rat.ofInt (Int.ofNat (r * 2 ^ u.toNat))
        else Rat.ofInt (-Int.ofNat (r * 2 ^ u.toNat)))
    else
      let r := nearest_even (n * 2 ^ (-u).toNat) d
      .fin (if 0 < q.num then mkRat (Int.ofNat r) (2 ^ (-u).toNat)
        else mkRat (-Int.ofNat r) (2 ^ (-u).toNat))

/-- Test `std::isfinite`. -/
def Dbl.isfinite : Dbl → Bool
  | .fin _ => true
  | _ => false

/-- Unary minus. -/
def Dbl.neg : Dbl → Dbl
  | .fin q => .fin (-q)
  | .pinf => .ninf
  | .ninf => .pinf
  | .nan => .nan

/-- Addition of doubles. -/
def Dbl.add : Dbl → Dbl → Dbl
  | .nan, _ => .nan
  | _, .nan => .nan
  | .pinf, .ninf => .nan
  | .ninf, .pinf => .nan
  | .pinf, _ => .pinf
  | _, .pinf => .pinf
  | .ninf, _ => .ninf
  | _, .ninf => .ninf
  | .fin a, .fin b => round64 (a + b)

/-- Subtraction of doubles. -/
def Dbl.sub (a b : Dbl) : Dbl := a.add b.neg

/-- Sign of a double that is not NaN: `1`, `0` or `-1`. -/
def Dbl.sign : Dbl → ℤ
  | .fin q => if 0 < q.num then 1 else if q.num < 0 then -1 else 0
  | .pinf => 1
  | .ninf => -1
  | .nan => 0

/-- The infinity of a given non-zero sign. -/
def Dbl.inf_of (s : ℤ) : Dbl := if 0 < s then .pinf else .ninf

/-- Multiplication of doubles. -/
def Dbl.mul : Dbl → Dbl → Dbl
  | .nan, _ => .nan
  | _, .nan => .nan
  | .fin a, .fin b => round64 (a * b)
  | a, b => if a.sign * b.sign = 0 then .nan else Dbl.inf_of (a.sign * b.sign)

/-- Division of doubles. -/
def Dbl.div : Dbl → Dbl → Dbl
  | .nan, _ => .nan
  | _, .nan => .nan
  | .fin a, .fin b =>
    if b.num = 0 then (if a.num = 0 then .nan else Dbl.inf_of (Dbl.fin a).sign)
    else round64 (a / b)
  | .fin _, _ => .fin 0
  | a, .fin b => if b.num < 0 then a.neg else a
  | _, _ => .nan

/-- Comparison `a < b` of doubles, false when one of them is NaN. -/
def Dbl.lt : Dbl → Dbl → Bool
  | .nan, _ => false
  | _, .nan => false
  | .fin a, .fin b => decide (a < b)
  | .ninf, .ninf => false
  | .ninf, _ => true
  | _, .ninf => false
  | .pinf, _ => false
  | _, .pinf => true

/-- Comparison `a <= b` of doubles, false when one of them is NaN. -/
def Dbl.le : Dbl → Dbl → Bool
  | .nan, _ => false
  | _, .nan => false
  | .fin a, .fin b => decide (a ≤ b)
  | .ninf, _ => true
  | _, .pinf => true
  | _, _ => false

/-- Conversion `(double) n` of a `size_t`. -/
def Dbl.of_nat (n : ℕ) : Dbl := round64 (Rat.ofInt (Int.ofNat n))

/-- Integer square root `⌊√n⌋`, one bit at a time from bit `k` down. -/
def isqrt_bits (n : ℕ) : ℕ → ℕ → ℕ
  | 0, r => if (r + 1) * (r + 1) ≤ n then r + 1 else r
  | k + 1, r =>
    if (r + 2 ^ (k + 1)) * (r + 2 ^ (k + 1)) ≤ n then isqrt_bits n k (r + 2 ^ (k + 1))
    else isqrt_bits n k r

/-- Integer square root `⌊√n⌋`. -/
def isqrt (n : ℕ) : ℕ := isqrt_bits n (ilog2 n / 2 + 1) 0

/-- Correctly rounded square root: the root is bracketed between two neighbours on a grid of
step `2 ^ -1100`, finer than any rounding boundary of binary64, and a point strictly inside
the bracket is rounded. -/
def sqrt64 : Dbl → Dbl
  | .nan => .nan
  | .pinf => .pinf
  | .ninf => .nan
  | .fin q =>
    if q.num < 0 then .nan
    else if q.num = 0 then .fin 0
    else
      let N := q.num.natAbs * 4 ^ 1100
      let s := isqrt (N / q.den)
      if s * s * q.den = N then round64 (mkRat (Int.ofNat s) (2 ^ 1100))
      else round64 (mkRat (Int.ofNat (2 * s + 1)) (2 ^ 1101))

/-! ## `compute_stats` in binary64 arithmetic

The same function as above with every `double` operation rounded as IEEE 754 prescribes
(no fused multiply-add), for the inputs on which rounding, overflow or underflow decide the
outcome. -/

/-- The numeric routines `compute_stats` calls but does not define, on doubles. -/
structure NumericLib64 where
  /-- `std::sqrt`. -/
  sqrt : Dbl → Dbl
  /-- Bin `k` (real part, imaginary part) of `fftw_plan_dft_r2c_1d` executed on the input. -/
  r2c : List Dbl → ℕ → Dbl × Dbl
  /-- Whether `fftw_malloc` returned a buffer for `in`. -/
  malloc_in : Bool
  /-- Whether `fftw_malloc` returned a buffer for `out`. -/
  malloc_out : Bool

/-- The struct `Stats` with its `double` fields. -/
structure Stats64 where
  dominant_freq_hz : Dbl
  spectrum : List Dbl
  mean : Dbl
  std_dev : Dbl
  min : Dbl
  max : Dbl
  deriving DecidableEq

/-- The initial `Stats s`: every number `NAN`, empty spectrum. -/
def Stats64.undefined : Stats64 := ⟨.nan, [], .nan, .nan, .nan, .nan⟩

/-- Conversion `get<double>()` to the nearest double; `none` is the `type_error` thrown on a
value that is not a number. -/
def Json.get_double64 : Json → Option Dbl
  | .num x => some (round64 x)
  | .nonfinite => some .nan
  | _ => none

/-- Body of the extraction loop for one record, on doubles. -/
def extract_one64 (key : String) (m : Json) : Option (Dbl × Dbl) :=
  if !m.contains key || !m.contains "timestamp" then none
  else
    match (m.at_ key).bind Json.get_double64 with
    | none => none
    | some v =>
      match (m.at_ "timestamp").bind Json.get_double64 with
      | none => none
      | some t => if v.isfinite && t.isfinite then some (v, t) else none

/-- The pairs `(v, t)` pushed by the extraction loop, on doubles. -/
def samples64 (messages : List Json) (key : String) : List (Dbl × Dbl) :=
  messages.filterMap (extract_one64 key)

/-- The vector `values` after the extraction loop, on doubles. -/
def extract_values64 (messages : List Json) (key : String) : List Dbl :=
  (samples64 messages key).map Prod.fst

/-- The vector `times` after the extraction loop, on doubles. -/
def extract_times64 (messages : List Json) (key : String) : List Dbl :=
  (samples64 messages key).map Prod.snd

/-- The index vector `idx` after sorting by time, on doubles. -/
def sorted_idx64 (times : List Dbl) : List ℕ :=
  std_sort (fun a b => (times.getD a (.fin 0)).lt (times.getD b (.fin 0)))
    (List.range times.length)

/-- The vector `t_sorted` after the time origin has been moved, on doubles. -/
def t_sorted64 (times : List Dbl) : List Dbl :=
  let ts := (sorted_idx64 times).map (fun (i : ℕ) => times.getD i (.fin 0))
  ts.map (fun tt => tt.sub (ts.headD (.fin 0)))

/-- The vector `v_sorted`, on doubles. -/
def v_sorted64 (values times : List Dbl) : List Dbl :=
  (sorted_idx64 times).map (fun (i : ℕ) => values.getD i (.fin 0))

/-- The grid end `tmax`, replaced by the double `1e-6` when `tmax <= 0`. -/
def grid_tmax64 (ts : List Dbl) : Dbl :=
  let tmax := ts.getLastD (.fin 0)
  if tmax.le (.fin 0) then round64 (1 / 1000000) else tmax

/-- The vector `uniform_t`, on doubles. -/
def uniform_t64 (ts : List Dbl) : List Dbl :=
  let N := ts.length
  (List.range N).map
    (fun (i : ℕ) => ((grid_tmax64 ts).mul (Dbl.of_nat i)).div (Dbl.of_nat (N - 1)))

/-- Loop of `std::lower_bound`, on doubles. -/
def lower_bound_loop64 (t : List Dbl) (val : Dbl) : ℕ → ℕ → ℕ → ℕ
  | 0, first, _ => first
  | fuel + 1, first, len =>
    if len = 0 then first
    else
      let half := len / 2
      let middle := first + half
      if (t.getD middle (.fin 0)).lt val then
        lower_bound_loop64 t val fuel (middle + 1) (len - half - 1)
      else
        lower_bound_loop64 t val fuel first half

/-- Position returned by `std::lower_bound`, on doubles. -/
def lower_bound64 (t : List Dbl) (val : Dbl) : ℕ :=
  lower_bound_loop64 t val t.length 0 t.length

/-- Body of the interpolation loop, on doubles. -/
def interp_at64 (ts vs : List Dbl) (tt : Dbl) : Dbl :=
  let j := lower_bound64 ts tt
  if j = 0 then vs.headD (.fin 0)
  else if j = ts.length then vs.getLastD (.fin 0)
  else
    let j0 := j - 1
    let t0_ := ts.getD j0 (.fin 0)
    let t1_ := ts.getD j (.fin 0)
    let v0_ := vs.getD j0 (.fin 0)
    let v1_ := vs.getD j (.fin 0)
    let alpha := (tt.sub t0_).div (t1_.sub t0_)
    v0_.add (alpha.mul (v1_.sub v0_))

/-- The vector `v_interp`, on doubles. -/
def v_interp64 (ts vs : List Dbl) : List Dbl :=
  (uniform_t64 ts).map (interp_at64 ts vs)

/-- The resampling step of `compute_stats`, on doubles. -/
def resample64 (values times : List Dbl) : List Dbl :=
  v_interp64 (t_sorted64 times) (v_sorted64 values times)

/-- Accumulator `sum` after the statistics loop, on doubles. -/
def stat_sum64 (vi : List Dbl) : Dbl := vi.foldl (fun s x => s.add x) (.fin 0)

/-- Accumulator `sumsq` after the statistics loop, on doubles. -/
def stat_sumsq64 (vi : List Dbl) : Dbl := vi.foldl (fun s x => s.add (x.mul x)) (.fin 0)

/-- Running minimum `vmin`, on doubles. -/
def stat_vmin64 (vi : List Dbl) : Dbl :=
  vi.foldl (fun m x => if x.lt m then x else m) (vi.headD (.fin 0))

/-- Running maximum `vmax`, on doubles. -/
def stat_vmax64 (vi : List Dbl) : Dbl :=
  vi.foldl (fun m x => if m.lt x then x else m) (vi.headD (.fin 0))

/-- The local `mean`, on doubles. -/
def stat_mean64 (vi : List Dbl) : Dbl := (stat_sum64 vi).div (Dbl.of_nat vi.length)

/-- The local `var`, on doubles. -/
def stat_var64 (vi : List Dbl) : Dbl :=
  ((stat_sumsq64 vi).div (Dbl.of_nat vi.length)).sub ((stat_mean64 vi).mul (stat_mean64 vi))

/-- The local `stddev`, on doubles. -/
def stat_stddev64 (L : NumericLib64) (vi : List Dbl) : Dbl :=
  if (Dbl.fin 0).lt (stat_var64 vi) then L.sqrt (stat_var64 vi) else .fin 0

/-- The local `denom`, on doubles. -/
def norm_denom64 (L : NumericLib64) (vi : List Dbl) : Dbl :=
  (L.sqrt ((stat_stddev64 L vi).mul (stat_stddev64 L vi))).add (round64 (1 / 1000000000000))

/-- The vector `signal`, on doubles. -/
def signal64 (L : NumericLib64) (vi : List Dbl) : List Dbl :=
  vi.map (fun x => (x.sub (stat_mean64 vi)).div (norm_denom64 L vi))

/-- The local `dt`, on doubles. -/
def grid_dt64 (ut : List Dbl) (M : ℕ) : Dbl :=
  if M > 1 then (ut.getD 1 (.fin 0)).sub (ut.getD 0 (.fin 0)) else .fin 1

/-- The vector `mags`, on doubles. -/
def mags64 (L : NumericLib64) (sig : List Dbl) : List Dbl :=
  (List.range (sig.length / 2 + 1)).map
    (fun (k : ℕ) => L.sqrt
      (((L.r2c sig k).1.mul (L.r2c sig k).1).add ((L.r2c sig k).2.mul (L.r2c sig k).2)))

/-- The divisor `dt * (double)M` of the bin frequencies. -/
def freq_divisor64 (dt : Dbl) (M : ℕ) : Dbl := dt.mul (Dbl.of_nat M)

/-- The vector `freqs`, on doubles. -/
def freqs64 (dt : Dbl) (M : ℕ) : List Dbl :=
  (List.range (M / 2 + 1)).map (fun (k : ℕ) => (Dbl.of_nat k).div (freq_divisor64 dt M))

/-- One iteration of the dominant-bin loop, on doubles. -/
def dominant_step64 (ms : List Dbl) (st : Dbl × ℕ) (k : ℕ) : Dbl × ℕ :=
  if st.1.lt (ms.getD k (.fin 0)) then (ms.getD k (.fin 0), k) else st

/-- The pair `(maxmag, maxidx)` after the dominant-bin loop, on doubles. -/
def dominant_loop64 (ms : List Dbl) : Dbl × ℕ :=
  ((List.range (ms.length - 1)).map (fun (i : ℕ) => i + 1)).foldl (dominant_step64 ms)
    (.fin (-1), 0)

/-- The value assigned to `s.dominant_freq_hz`, on doubles. -/
def dominant_freq64 (ms fs : List Dbl) : Dbl :=
  if ms.length > 1 then fs.getD (dominant_loop64 ms).2 (.fin 0) else .nan

/-- The vector assigned to `s.spectrum`, on doubles. -/
def spectrum_take64 (ms : List Dbl) : List Dbl :=
  ms.take (Nat.min 10 ms.length)

/-- The function `compute_stats`, on doubles. -/
def compute_stats64 (L : NumericLib64) (messages : List Json) (key : String) : Stats64 :=
  let values := extract_values64 messages key
  let times := extract_times64 messages key
  if values.length < 2 then Stats64.undefined
  else
    let ut := uniform_t64 (t_sorted64 times)
    let vi := resample64 values times
    let s : Stats64 :=
      { Stats64.undefined with
        mean := stat_mean64 vi
        std_dev := stat_stddev64 L vi
        min := stat_vmin64 vi
        max := stat_vmax64 vi }
    if !L.malloc_in || !L.malloc_out then s
    else
      let sig := signal64 L vi
      let ms := mags64 L sig
      let fs := freqs64 (grid_dt64 ut sig.length) sig.length
      { s with
        dominant_freq_hz := dominant_freq64 ms fs
        spectrum := spectrum_take64 ms }

/-- A term `x * c` of the reference transform; the factors 1, -1 and 0 need no
multiplication. -/
def twiddle_term (x : Dbl) (c : ℚ) : Dbl :=
  if c = 1 then x else if c = -1 then x.neg else if c = 0 then .fin 0 else x.mul (round64 c)

/-- Bin `k` of the discrete Fourier transform of a real signal on doubles, summed term by
term with the approximate trigonometric functions above. -/
def dft_bin64 (sig : List Dbl) (k : ℕ) : Dbl × Dbl :=
  let M := sig.length
  let re := (List.range M).map (fun (j : ℕ) =>
    twiddle_term (sig.getD j (.fin 0)) (cos_turn (mkRat (Int.ofNat (j * k)) M)))
  let im := (List.range M).map (fun (j : ℕ) =>
    twiddle_term (sig.getD j (.fin 0)) (-sin_turn (mkRat (Int.ofNat (j * k)) M)))
  (re.foldl (fun s x => s.add x) (.fin 0), im.foldl (fun s x => s.add x) (.fin 0))

/-- A numeric library on doubles: the correctly rounded square root, the reference transform
and successful buffer allocation. -/
def refLib64 : NumericLib64 :=
  { sqrt := sqrt64
    r2c := dft_bin64
    malloc_in := true
    malloc_out := true }

/-- Ten `vehicle_count` records of 0.1 at the times 0, 1, ..., 9. -/
def tenth_batch : List Json :=
  (List.range 10).map (fun (i : ℕ) => count_record (1 / 10) (Rat.ofInt (Int.ofNat i)))

/-- Two `vehicle_count` records, 26.4 at time 0 and 106.2 at time 1. -/
def wide_batch : List Json :=
  [count_record (264 / 10) 0, count_record (1062 / 10) 1]

/-- Two `vehicle_count` records of `2 ^ 1023` (about 8.99e307), at times 0 and 1. -/
def huge_batch : List Json :=
  [count_record (2 ^ 1023) 0, count_record (2 ^ 1023) 1]

/-- Three `vehicle_count` records at the times 0, 0 and 5e-324. -/
def subnormal_batch : List Json :=
  [count_record 1 0, count_record 5 0, count_record 2 (5 / 10 ^ 324)]


/-! ## Auxiliary lemmas: lists and sorting -/

theorem map_getD_range (l : List ℚ) :
    (List.range l.length).map (fun i => l.getD i 0) = l := by
  apply List.ext_getElem
  · simp
  · intro i h1 h2
    simp [List.getD_eq_getElem?_getD, h2]

theorem map_getD_range_of_length (l : List ℚ) (n : ℕ) (h : l.length = n) :
    (List.range n).map (fun i => l.getD i 0) = l := by
  subst h
  exact map_getD_range l

theorem length_sorted_idx (times : List ℚ) : (sorted_idx times).length = times.length := by
  simp [sorted_idx, std_sort, List.length_insertionSort]

theorem mem_sorted_idx (times : List ℚ) (i : ℕ) :
    i ∈ sorted_idx times ↔ i < times.length := by
  simp [sorted_idx, std_sort, List.mem_insertionSort]

theorem sorted_idx_perm (times : List ℚ) :
    (sorted_idx times).Perm (List.range times.length) := by
  simp only [sorted_idx, std_sort]
  exact List.perm_insertionSort _ _

/-- On strictly increasing times the sort leaves the index vector as it is. -/
theorem sorted_idx_of_sorted (times : List ℚ) (h : times.Sorted (· < ·)) :
    sorted_idx times = List.range times.length := by
  simp only [sorted_idx, std_sort]
  apply List.Sorted.insertionSort_eq
  have hr : (List.range times.length).Pairwise (· < ·) := List.pairwise_lt_range _
  refine List.Pairwise.imp_of_mem ?_ hr
  intro a b ha hb hab
  simp only [List.mem_range] at ha hb
  have hlt : times[a] < times[b] := by
    have := List.pairwise_iff_getElem.mp h a b ha hb hab
    exact this
  simp [List.getD_eq_getElem?_getD, ha, hb, le_of_lt hlt]

theorem getLastD_eq_getD (l : List ℚ) : l.getLastD 0 = l.getD (l.length - 1) 0 := by
  rw [List.getLastD_eq_getLast?, List.getLast?_eq_getElem?, List.getD_eq_getElem?_getD]

theorem headD_eq_getD (l : List ℚ) : l.headD 0 = l.getD 0 0 := by
  cases l <;> simp

theorem head?_eq_some_getD (l : List ℚ) (h : 0 < l.length) : l.head? = some (l.getD 0 0) := by
  cases l with
  | nil => simp at h
  | cons a t => simp

theorem getLast?_eq_some_getD (l : List ℚ) (h : 0 < l.length) :
    l.getLast? = some (l.getD (l.length - 1) 0) := by
  rw [List.getLast?_eq_getElem?, List.getD_eq_getElem?_getD]
  have : l.length - 1 < l.length := by omega
  simp [this]

theorem getD_of_sorted_lt (times : List ℚ) (h : times.Sorted (· < ·)) (i j : ℕ)
    (hij : i < j) (hj : j < times.length) : times.getD i 0 < times.getD j 0 := by
  have hi : i < times.length := lt_trans hij hj
  have := List.pairwise_iff_getElem.mp h i j hi hj hij
  simpa [List.getD_eq_getElem?_getD, hi, hj] using this

/-! ## Auxiliary lemmas: the extraction loop -/

theorem extract_one_isSome (key : String) (m : Json) :
    (extract_one key m).isSome = valid_record key m := by
  cases m with
  | obj fields =>
    simp only [extract_one, valid_record, Json.contains, Json.at_]
    cases hk : fields.lookup key with
    | none => simp
    | some a =>
      cases ht : fields.lookup "timestamp" with
      | none => simp
      | some b => cases a <;> cases b <;> simp [Json.get_double]
  | _ => simp [extract_one, valid_record, Json.contains, Json.at_]

theorem length_samples (messages : List Json) (key : String) :
    (samples messages key).length = messages.countP (valid_record key) := by
  induction messages with
  | nil => simp [samples]
  | cons m rest ih =>
    have h := extract_one_isSome key m
    simp only [samples] at ih
    cases hm : extract_one key m with
    | none =>
      rw [hm] at h
      have hv : valid_record key m = false := by simpa using h.symm
      simp [samples, List.filterMap_cons, hm, List.countP_cons, hv, ih]
    | some p =>
      rw [hm] at h
      have hv : valid_record key m = true := by simpa using h.symm
      simp [samples, List.filterMap_cons, hm, List.countP_cons, hv, ih]

theorem length_extract_values (messages : List Json) (key : String) :
    (extract_values messages key).length = (samples messages key).length := by
  simp [extract_values]

theorem length_extract_times (messages : List Json) (key : String) :
    (extract_times messages key).length = (samples messages key).length := by
  simp [extract_times]



/-! ## Auxiliary lemmas: the binary search -/

theorem ascending_of_sorted (t : List ℚ) (h : t.Sorted (· ≤ ·)) : Ascending t := by
  intro i j hij hj
  have hi : i < t.length := lt_of_le_of_lt hij hj
  rcases Nat.lt_or_eq_of_le hij with hlt | heq
  · have := List.pairwise_iff_getElem.mp h i j hi hj hlt
    simpa [List.getD_eq_getElem?_getD, hi, hj] using this
  · subst heq
    exact le_refl _

theorem lower_bound_loop_spec (t : List ℚ) (val : ℚ) (hs : Ascending t) :
    ∀ fuel first len : ℕ, len ≤ fuel → first + len ≤ t.length →
      (∀ i, i < first → t.getD i 0 < val) →
      (∀ i, first + len ≤ i → i < t.length → val ≤ t.getD i 0) →
      lower_bound_loop t val fuel first len ≤ t.length ∧
      (∀ i, i < lower_bound_loop t val fuel first len → t.getD i 0 < val) ∧
      (∀ i, lower_bound_loop t val fuel first len ≤ i → i < t.length → val ≤ t.getD i 0) := by
  intro fuel
  induction fuel with
  | zero =>
    intro first len hlen hb hlo hhi
    have h0 : len = 0 := Nat.le_zero.mp hlen
    subst h0
    simp only [lower_bound_loop]
    exact ⟨by omega, hlo, fun i hi hil => hhi i (by omega) hil⟩
  | succ fuel ih =>
    intro first len hlen hb hlo hhi
    simp only [lower_bound_loop]
    by_cases h0 : len = 0
    · subst h0
      simp only [if_true]
      exact ⟨by omega, hlo, fun i hi hil => hhi i (by omega) hil⟩
    · simp only [h0, if_false]
      have hhalf : len / 2 < len := Nat.div_lt_self (Nat.pos_of_ne_zero h0) (by decide)
      by_cases hm : t.getD (first + len / 2) 0 < val
      · simp only [hm, if_true]
        apply ih
        · omega
        · omega
        · intro i hi
          have h1 : i ≤ first + len / 2 := by omega
          exact lt_of_le_of_lt (hs i (first + len / 2) h1 (by omega)) hm
        · intro i hi hil
          exact hhi i (by omega) hil
      · simp only [hm, if_false]
        apply ih
        · omega
        · omega
        · exact hlo
        · intro i hi hil
          exact le_trans (not_lt.mp hm) (hs (first + len / 2) i hi hil)

/-- On an ascending vector `lower_bound` returns the first position whose entry is not below
`val`. -/
theorem lower_bound_spec (t : List ℚ) (val : ℚ) (hs : Ascending t) :
    lower_bound t val ≤ t.length ∧
    (∀ i, i < lower_bound t val → t.getD i 0 < val) ∧
    (∀ i, lower_bound t val ≤ i → i < t.length → val ≤ t.getD i 0) := by
  apply lower_bound_loop_spec t val hs t.length 0 t.length (le_refl _) (by omega)
  · intro i hi
    omega
  · intro i hi hil
    omega

/-- The position returned by `lower_bound` is the only one that splits an ascending vector
into entries below `val` and entries not below `val`. -/
theorem lower_bound_unique (t : List ℚ) (val : ℚ) (hs : Ascending t) (j : ℕ)
    (hj : j ≤ t.length) (hlo : ∀ i, i < j → t.getD i 0 < val)
    (hhi : ∀ i, j ≤ i → i < t.length → val ≤ t.getD i 0) :
    lower_bound t val = j := by
  obtain ⟨h1, h2, h3⟩ := lower_bound_spec t val hs
  rcases Nat.lt_trichotomy (lower_bound t val) j with h | h | h
  · have a := hlo _ h
    have b := h3 _ (le_refl _) (by omega)
    exact absurd a (not_lt.mpr b)
  · exact h
  · have a := h2 _ h
    have b := hhi _ (le_refl _) (by omega)
    exact absurd a (not_lt.mpr b)


/-! ## Auxiliary lemmas: the resampling step -/

theorem length_t_sorted (times : List ℚ) : (t_sorted times).length = times.length := by
  simp [t_sorted, length_sorted_idx]

theorem length_v_sorted (values times : List ℚ) :
    (v_sorted values times).length = times.length := by
  simp [v_sorted, length_sorted_idx]

theorem length_uniform_t (ts : List ℚ) : (uniform_t ts).length = ts.length := by
  simp [uniform_t]

theorem length_resample (values times : List ℚ) :
    (resample values times).length = times.length := by
  simp [resample, v_interp, length_uniform_t, length_t_sorted]

theorem getElem?_resample (values times : List ℚ) (i : ℕ) (hi : i < times.length) :
    (resample values times)[i]? =
      some (interp_at (t_sorted times) (v_sorted values times)
        ((grid_tmax (t_sorted times) * (i : ℚ)) / ((times.length - 1 : ℕ) : ℚ))) := by
  simp [resample, v_interp, uniform_t, length_t_sorted, hi]

theorem t_sorted_of_sorted (times : List ℚ) (h : times.Sorted (· < ·)) :
    t_sorted times = times.map (fun tt => tt - times.headD 0) := by
  simp only [t_sorted, sorted_idx_of_sorted times h, map_getD_range]

theorem v_sorted_of_sorted (values times : List ℚ) (hlen : values.length = times.length)
    (h : times.Sorted (· < ·)) : v_sorted values times = values := by
  simp only [v_sorted, sorted_idx_of_sorted times h]
  exact map_getD_range_of_length values times.length hlen

theorem getD_map_sub (times : List ℚ) (c : ℚ) (i : ℕ) (hi : i < times.length) :
    (times.map (fun tt => tt - c)).getD i 0 = times.getD i 0 - c := by
  simp [List.getD_eq_getElem?_getD, hi]

/-! ## Auxiliary lemmas: the sort as a sort of (value, time) pairs -/

theorem time_le_iff (a b : ℚ × ℚ) : time_le a b ↔ a.2 ≤ b.2 := by
  simp [time_le]

theorem map_pair_range (values times : List ℚ) (n : ℕ) (hv : values.length = n)
    (ht : times.length = n) :
    (List.range n).map (fun (i : ℕ) => (values.getD i 0, times.getD i 0)) =
      List.zip values times := by
  apply List.ext_getElem
  · simp [hv, ht]
  · intro i h1 h2
    simp only [List.length_map, List.length_range] at h1
    have h3 : i < values.length := by omega
    have h4 : i < times.length := by omega
    simp [List.getD_eq_getElem?_getD, h3, h4]

/-- Gathering both vectors by the sorted index vector is sorting the pairs by time. -/
theorem sorted_pairs_eq (values times : List ℚ) (hlen : values.length = times.length) :
    (sorted_idx times).map (fun (i : ℕ) => (values.getD i 0, times.getD i 0)) =
      (List.zip values times).insertionSort time_le := by
  rw [← map_pair_range values times times.length hlen rfl]
  simp only [sorted_idx, std_sort]
  apply List.map_insertionSort
  intro a _ b _
  simp [time_le]

theorem t_sorted_eq_pairs (values times : List ℚ) (hlen : values.length = times.length) :
    t_sorted times =
      (((List.zip values times).insertionSort time_le).map Prod.snd).map
        (fun tt => tt - (((List.zip values times).insertionSort time_le).map Prod.snd).headD 0) := by
  rw [← sorted_pairs_eq values times hlen]
  simp [t_sorted, List.map_map, Function.comp_def]

theorem v_sorted_eq_pairs (values times : List ℚ) (hlen : values.length = times.length) :
    v_sorted values times = ((List.zip values times).insertionSort time_le).map Prod.fst := by
  rw [← sorted_pairs_eq values times hlen]
  simp [v_sorted, List.map_map, Function.comp_def]

/-- Two permutations of one another with pairwise distinct times are sorted to the same list. -/
theorem insertionSort_perm_of_nodup (p q : List (ℚ × ℚ)) (hperm : p.Perm q)
    (hnd : (p.map Prod.snd).Nodup) :
    p.insertionSort time_le = q.insertionSort time_le := by
  have hp : (p.insertionSort time_le).Perm (q.insertionSort time_le) :=
    (List.perm_insertionSort _ p).trans (hperm.trans (List.perm_insertionSort _ q).symm)
  have hndp : ((p.insertionSort time_le).map Prod.snd).Nodup :=
    ((List.perm_insertionSort time_le p).map Prod.snd).nodup_iff.mpr hnd
  have hndq : ((q.insertionSort time_le).map Prod.snd).Nodup :=
    (hp.map Prod.snd).nodup_iff.mp hndp
  have strict : ∀ l : List (ℚ × ℚ), l.Sorted time_le → (l.map Prod.snd).Nodup →
      l.Sorted (fun a b => a.2 < b.2) := by
    intro l hs hn
    have hne : l.Pairwise (fun a b => a.2 ≠ b.2) := by
      have := List.pairwise_map.mp hn
      exact this
    exact (List.Pairwise.and hs hne).imp
      (fun {a b} h => lt_of_le_of_ne ((time_le_iff a b).mp h.1) h.2)
  haveI : IsAntisymm (ℚ × ℚ) (fun a b => a.2 < b.2) :=
    ⟨fun a b h1 h2 => absurd h1 (not_lt.mpr (le_of_lt h2))⟩
  exact List.eq_of_perm_of_sorted hp
    (strict _ (List.sorted_insertionSort time_le p) hndp)
    (strict _ (List.sorted_insertionSort time_le q) hndq)

theorem zip_samples (messages : List Json) (key : String) :
    List.zip (extract_values messages key) (extract_times messages key) =
      samples messages key := by
  simp only [extract_values, extract_times]
  generalize samples messages key = p
  induction p with
  | nil => simp
  | cons a t ih => simp [ih]

/-! ## Auxiliary lemmas: the fields of the returned `Stats` -/

theorem compute_stats_basic (L : NumericLib) (messages : List Json) (key : String)
    (h : 2 ≤ (samples messages key).length) :
    (compute_stats L messages key).mean =
      some (stat_mean (resample (extract_values messages key) (extract_times messages key))) ∧
    (compute_stats L messages key).std_dev =
      some (stat_stddev L
        (resample (extract_values messages key) (extract_times messages key))) ∧
    (compute_stats L messages key).min =
      some (stat_vmin (resample (extract_values messages key) (extract_times messages key))) ∧
    (compute_stats L messages key).max =
      some (stat_vmax (resample (extract_values messages key) (extract_times messages key))) := by
  have hlen : ¬ (extract_values messages key).length < 2 := by
    rw [length_extract_values]
    omega
  simp only [compute_stats, hlen, if_false]
  split <;> simp

theorem compute_stats_spectral (L : NumericLib) (messages : List Json) (key : String)
    (h : 2 ≤ (samples messages key).length)
    (hin : L.malloc_in = true) (hout : L.malloc_out = true) :
    (compute_stats L messages key).dominant_freq_hz =
      dominant_freq
        (mags L (signal L (resample (extract_values messages key) (extract_times messages key))))
        (freqs
          (grid_dt (uniform_t (t_sorted (extract_times messages key)))
            (signal L
              (resample (extract_values messages key) (extract_times messages key))).length)
          (signal L
            (resample (extract_values messages key) (extract_times messages key))).length) ∧
    (compute_stats L messages key).spectrum =
      spectrum_take
        (mags L
          (signal L (resample (extract_values messages key) (extract_times messages key)))) := by
  have hlen : ¬ (extract_values messages key).length < 2 := by
    rw [length_extract_values]
    omega
  simp [compute_stats, hlen, hin, hout]

/-- When one of the two transform buffers is not allocated, `compute_stats` returns before the
transform: the basic statistics are set, the dominant frequency is `NAN` and the spectrum is
empty. -/
theorem compute_stats_no_buffer (L : NumericLib) (messages : List Json) (key : String)
    (h : 2 ≤ (samples messages key).length)
    (hbuf : L.malloc_in = false ∨ L.malloc_out = false) :
    (compute_stats L messages key).dominant_freq_hz = none ∧
    (compute_stats L messages key).spectrum = [] := by
  have hlen : ¬ (extract_values messages key).length < 2 := by
    rw [length_extract_values]
    omega
  rcases hbuf with hb | hb <;> simp [compute_stats, hlen, hb, Stats.undefined]

/-! ## Auxiliary lemmas: the sorted vectors in general -/

/-- The times gathered by the sorted index vector do not decrease. -/
theorem sorted_raw_times (times : List ℚ) :
    ((sorted_idx times).map (fun (i : ℕ) => times.getD i 0)).Sorted (· ≤ ·) := by
  haveI : IsTotal ℕ (fun a b => decide (times.getD b 0 < times.getD a 0) = false) :=
    ⟨fun a b => by
      simp only [decide_eq_false_iff_not, not_lt]
      exact le_total _ _⟩
  haveI : IsTrans ℕ (fun a b => decide (times.getD b 0 < times.getD a 0) = false) :=
    ⟨fun a b c h1 h2 => by
      simp only [decide_eq_false_iff_not, not_lt] at *
      exact le_trans h1 h2⟩
  have hs : (sorted_idx times).Sorted
      (fun a b => decide (times.getD b 0 < times.getD a 0) = false) := by
    simp only [sorted_idx, std_sort]
    exact List.sorted_insertionSort _ _
  refine List.Pairwise.map _ ?_ hs
  intro a b h
  simpa using h

theorem ascending_t_sorted (times : List ℚ) : Ascending (t_sorted times) := by
  apply ascending_of_sorted
  simp only [t_sorted]
  refine List.Pairwise.map _ ?_ (sorted_raw_times times)
  intro a b h
  linarith

/-- Every entry of `v_sorted` is an entry of `values`. -/
theorem getD_v_sorted_mem (values times : List ℚ) (hlen : values.length = times.length)
    (j : ℕ) (hj : j < times.length) : (v_sorted values times).getD j 0 ∈ values := by
  have hj' : j < (sorted_idx times).length := by
    rw [length_sorted_idx]
    exact hj
  have hmem : (sorted_idx times)[j] ∈ sorted_idx times := List.getElem_mem _
  have hlt : (sorted_idx times)[j] < values.length := by
    rw [hlen]
    exact (mem_sorted_idx times _).mp hmem
  simp only [v_sorted, List.getD_eq_getElem?_getD, List.getElem?_map,
    List.getElem?_eq_getElem hj', Option.map_some', Option.getD_some,
    List.getElem?_eq_getElem hlt]
  exact List.getElem_mem _

/-- The rebased times start at zero. -/
theorem t_sorted_nonneg (times : List ℚ) (i : ℕ) (hi : i < times.length) :
    0 ≤ (t_sorted times).getD i 0 := by
  have hasc := ascending_t_sorted times
  have hlen := length_t_sorted times
  have h0 : (t_sorted times).getD 0 0 = 0 := by
    cases hidx : sorted_idx times with
    | nil =>
      have := length_sorted_idx times
      rw [hidx] at this
      simp at this
      omega
    | cons a rest => simp [t_sorted, hidx]
  have := hasc 0 i (Nat.zero_le _) (by omega)
  rw [h0] at this
  exact this

/-! ## Insufficient data -/

/-- C1: when fewer than two records of the batch are valid for the metric, `compute_stats`
returns a `Stats` whose mean, standard deviation, minimum, maximum and dominant frequency are
all undefined and whose spectrum is empty. -/
theorem compute_stats_insufficient (L : NumericLib) (messages : List Json) (key : String)
    (h : messages.countP (valid_record key) < 2) :
    (compute_stats L messages key).mean = none ∧
    (compute_stats L messages key).std_dev = none ∧
    (compute_stats L messages key).min = none ∧
    (compute_stats L messages key).max = none ∧
    (compute_stats L messages key).dominant_freq_hz = none ∧
    (compute_stats L messages key).spectrum = [] := by
  have hlen : (extract_values messages key).length < 2 := by
    rw [length_extract_values, length_samples]
    exact h
  simp [compute_stats, hlen, Stats.undefined]

theorem compute_stats_insufficient_witness :
    [count_record 3 0].countP (valid_record "vehicle_count") < 2 ∧
    (compute_stats refLib [count_record 3 0] "vehicle_count").mean = none ∧
    (compute_stats refLib [count_record 3 0] "vehicle_count").std_dev = none ∧
    (compute_stats refLib [count_record 3 0] "vehicle_count").min = none ∧
    (compute_stats refLib [count_record 3 0] "vehicle_count").max = none ∧
    (compute_stats refLib [count_record 3 0] "vehicle_count").dominant_freq_hz = none ∧
    (compute_stats refLib [count_record 3 0] "vehicle_count").spectrum = [] :=
  ⟨by decide, compute_stats_insufficient refLib [count_record 3 0] "vehicle_count" (by decide)⟩

/-! ## Endpoints of the Uniform Series -/

/-- C2: on a Sample Series of length `M ≥ 2` with strictly increasing timestamps the resampling
step yields a Uniform Series of length `M` whose first value is the first input value and whose
last value is the last input value (arithmetic being exact). -/
theorem resample_endpoints (values times : List ℚ) (hlen : values.length = times.length)
    (hM : 2 ≤ values.length) (hinc : times.Sorted (· < ·)) :
    (resample values times).length = values.length ∧
    (resample values times).head? = values.head? ∧
    (resample values times).getLast? = values.getLast? := by
  have hN : 2 ≤ times.length := hlen ▸ hM
  have hstrict := getD_of_sorted_lt times hinc
  have hts : ∀ i, i < times.length →
      (t_sorted times).getD i 0 = times.getD i 0 - times.getD 0 0 := by
    intro i hi
    rw [t_sorted_of_sorted times hinc, headD_eq_getD, getD_map_sub times _ i hi]
  have hlt : (t_sorted times).length = times.length := length_t_sorted times
  have hasc : Ascending (t_sorted times) := by
    intro i j hij hj
    rw [hlt] at hj
    rw [hts i (by omega), hts j hj]
    rcases Nat.lt_or_eq_of_le hij with h | h
    · have := hstrict i j h hj
      linarith
    · subst h
      exact le_refl _
  have hvs : v_sorted values times = values := v_sorted_of_sorted values times hlen hinc
  refine ⟨by rw [length_resample, hlen], ?_, ?_⟩
  · -- first grid point
    rw [List.head?_eq_getElem?, getElem?_resample values times 0 (by omega),
      head?_eq_some_getD values (by omega)]
    have hlb : lower_bound (t_sorted times) 0 = 0 := by
      apply lower_bound_unique _ _ hasc 0 (by omega)
      · intro i hi
        omega
      · intro i _ hi
        rw [hlt] at hi
        rw [hts i hi]
        rcases Nat.eq_zero_or_pos i with h | h
        · subst h
          simp
        · have := hstrict 0 i h hi
          linarith
    have harg0 : grid_tmax (t_sorted times) * ((0 : ℕ) : ℚ) /
        ((times.length - 1 : ℕ) : ℚ) = 0 := by simp
    rw [harg0]
    simp only [interp_at, hlb, hvs, headD_eq_getD, if_true]
  · -- last grid point
    have hres : (resample values times).length - 1 = times.length - 1 := by
      rw [length_resample]
    rw [List.getLast?_eq_getElem?, hres, getElem?_resample values times _ (by omega),
      getLast?_eq_some_getD values (by omega), hlen]
    have hlast : (t_sorted times).getLastD 0 = (t_sorted times).getD (times.length - 1) 0 := by
      rw [getLastD_eq_getD, hlt]
    have hpos : 0 < (t_sorted times).getD (times.length - 1) 0 := by
      rw [hts _ (by omega)]
      have := hstrict 0 (times.length - 1) (by omega) (by omega)
      linarith
    have htmax : grid_tmax (t_sorted times) = (t_sorted times).getD (times.length - 1) 0 := by
      simp only [grid_tmax, hlast]
      rw [if_neg (not_le.mpr hpos)]
    have hne : ((times.length - 1 : ℕ) : ℚ) ≠ 0 := by
      have : times.length - 1 ≠ 0 := by omega
      exact_mod_cast this
    have harg : grid_tmax (t_sorted times) * ((times.length - 1 : ℕ) : ℚ) /
        ((times.length - 1 : ℕ) : ℚ) = (t_sorted times).getD (times.length - 1) 0 := by
      rw [htmax, mul_div_assoc, div_self hne, mul_one]
    rw [harg]
    have hlb : lower_bound (t_sorted times) ((t_sorted times).getD (times.length - 1) 0)
        = times.length - 1 := by
      apply lower_bound_unique _ _ hasc _ (by omega)
      · intro i hi
        rw [hts i (by omega), hts _ (by omega)]
        have := hstrict i (times.length - 1) hi (by omega)
        linarith
      · intro i h1 h2
        rw [hlt] at h2
        have : i = times.length - 1 := by omega
        rw [this]
    have hprev : (t_sorted times).getD (times.length - 1 - 1) 0 <
        (t_sorted times).getD (times.length - 1) 0 := by
      rw [hts _ (by omega), hts _ (by omega)]
      have := hstrict (times.length - 1 - 1) (times.length - 1) (by omega) (by omega)
      linarith
    have hd : (t_sorted times).getD (times.length - 1) 0 -
        (t_sorted times).getD (times.length - 1 - 1) 0 ≠ 0 := by linarith
    have h1 : times.length - 1 ≠ 0 := by omega
    have h2 : times.length - 1 ≠ (t_sorted times).length := by omega
    simp only [interp_at, hlb, h1, h2, if_false, hvs, div_self hd]
    congr 1
    ring

theorem resample_endpoints_witness :
    (resample [1, 5, 2] [0, 1, 3]).length = [(1 : ℚ), 5, 2].length ∧
    (resample [1, 5, 2] [0, 1, 3]).head? = [(1 : ℚ), 5, 2].head? ∧
    (resample [1, 5, 2] [0, 1, 3]).getLast? = [(1 : ℚ), 5, 2].getLast? :=
  resample_endpoints [1, 5, 2] [0, 1, 3] (by decide) (by decide) (by decide)

/-! ## Order of the input samples -/

theorem resample_congr_of_perm (messages messages' : List Json) (key : String)
    (hperm : (samples messages key).Perm (samples messages' key))
    (hnd : (extract_times messages key).Nodup) :
    t_sorted (extract_times messages key) = t_sorted (extract_times messages' key) ∧
    v_sorted (extract_values messages key) (extract_times messages key) =
      v_sorted (extract_values messages' key) (extract_times messages' key) := by
  have hl : (extract_values messages key).length = (extract_times messages key).length := by
    rw [length_extract_values, length_extract_times]
  have hl' : (extract_values messages' key).length = (extract_times messages' key).length := by
    rw [length_extract_values, length_extract_times]
  have hs : (samples messages key).insertionSort time_le =
      (samples messages' key).insertionSort time_le :=
    insertionSort_perm_of_nodup _ _ hperm hnd
  constructor
  · rw [t_sorted_eq_pairs _ _ hl, t_sorted_eq_pairs _ _ hl', zip_samples, zip_samples, hs]
  · rw [v_sorted_eq_pairs _ _ hl, v_sorted_eq_pairs _ _ hl', zip_samples, zip_samples, hs]

theorem trigger_processing (s : RunState) (h : s.status = .processing) :
    trigger s = (s, .processing) := by
  simp [trigger, h]

theorem trigger_not_processing (s : RunState) (h : s.status ≠ .processing) :
    (trigger s).1.status = .processing ∧
    (trigger s).1.in_flight = s.in_flight + 1 ∧
    (trigger s).2 = .processing_started := by
  simp only [trigger, h, if_false, RunState.in_flight]
  refine ⟨trivial, ?_, trivial⟩
  omega

theorem step_preserves (s s' : RunState) (h : Step s s')
    (hinv : s.in_flight ≤ 1 ∧ (s.in_flight = 1 ↔ s.status = .processing)) :
    s'.in_flight ≤ 1 ∧ (s'.in_flight = 1 ↔ s'.status = .processing) := by
  obtain ⟨hle, hiff⟩ := hinv
  cases h with
  | trigger =>
    by_cases hp : s.status = .processing
    · rw [trigger_processing s hp]
      exact ⟨hle, hiff⟩
    · obtain ⟨h1, h2, _⟩ := trigger_not_processing s hp
      have h0 : s.in_flight = 0 := by
        have : s.in_flight ≠ 1 := fun h => hp (hiff.mp h)
        omega
      rw [h2, h1, h0]
      simp
  | worker_start _ hw =>
    simp only [worker_start] at hw
    split at hw
    · exact absurd hw (by simp)
    · rename_i hl
      injection hw with hw
      subst hw
      simp only [RunState.in_flight] at *
      constructor
      · omega
      · constructor
        · intro
          trivial
        · intro
          omega
  | worker_finish _ hw =>
    simp only [worker_finish] at hw
    split at hw
    · exact absurd hw (by simp)
    · rename_i hr
      injection hw with hw
      subst hw
      simp only [RunState.in_flight] at *
      constructor
      · omega
      · constructor
        · intro h
          omega
        · intro h
          exact absurd h (by decide)

theorem reachable_invariant (s : RunState) (h : Reachable s) :
    s.in_flight ≤ 1 ∧ (s.in_flight = 1 ↔ s.status = .processing) := by
  induction h with
  | init => simp [RunState.init, RunState.in_flight]
  | step s s' _ hstep ih => exact step_preserves s s' hstep ih

/-- C4: in the step relation with the steps trigger, worker-start and worker-finish, a trigger
taken in state `processing` is rejected, leaves the state unchanged and launches no pass; a
trigger in `idle` or `done` sets the state to `processing` and launches exactly one pass; and
in every reachable state at most one pass is in flight, and one is in flight only while the
state is `processing`. -/
theorem run_state_single_pass (s : RunState) :
    (s.status = .processing → trigger s = (s, .processing)) ∧
    (s.status ≠ .processing →
      (trigger s).1.status = .processing ∧
      (trigger s).1.in_flight = s.in_flight + 1 ∧
      (trigger s).2 = .processing_started) ∧
    (Reachable s → s.in_flight ≤ 1 ∧ (1 ≤ s.in_flight → s.status = .processing)) := by
  refine ⟨trigger_processing s, trigger_not_processing s, ?_⟩
  intro hr
  obtain ⟨hle, hiff⟩ := reachable_invariant s hr
  refine ⟨hle, ?_⟩
  intro h1
  exact hiff.mp (by omega)

theorem run_state_single_pass_witness :
    Reachable (trigger RunState.init).1 ∧
    (trigger RunState.init).1.status = .processing ∧
    trigger (trigger RunState.init).1 = ((trigger RunState.init).1, .processing) ∧
    (trigger RunState.init).1.in_flight ≤ 1 :=
  ⟨Reachable.step _ _ Reachable.init (Step.trigger _), by decide,
    (run_state_single_pass (trigger RunState.init).1).1 (by decide),
    ((run_state_single_pass (trigger RunState.init).1).2.2
      (Reachable.step _ _ Reachable.init (Step.trigger _))).1⟩

/-! ## Dominant frequency -/

theorem dominant_fold_spec (ms : List ℚ) (hpos : ∀ j, 1 ≤ j → j < ms.length → -1 < ms.getD j 0) :
    ∀ m : ℕ, m + 1 ≤ ms.length →
      (m = 0 → ((List.range m).map (fun (i : ℕ) => i + 1)).foldl (dominant_step ms) (-1, 0)
        = (-1, 0)) ∧
      (1 ≤ m →
        1 ≤ (((List.range m).map (fun (i : ℕ) => i + 1)).foldl (dominant_step ms) (-1, 0)).2 ∧
        (((List.range m).map (fun (i : ℕ) => i + 1)).foldl (dominant_step ms) (-1, 0)).2 ≤ m ∧
        (((List.range m).map (fun (i : ℕ) => i + 1)).foldl (dominant_step ms) (-1, 0)).1 =
          ms.getD
            (((List.range m).map (fun (i : ℕ) => i + 1)).foldl (dominant_step ms) (-1, 0)).2 0 ∧
        (∀ j, 1 ≤ j → j ≤ m → ms.getD j 0 ≤
          (((List.range m).map (fun (i : ℕ) => i + 1)).foldl (dominant_step ms) (-1, 0)).1) ∧
        (∀ j, 1 ≤ j →
          j < (((List.range m).map (fun (i : ℕ) => i + 1)).foldl (dominant_step ms) (-1, 0)).2 →
          ms.getD j 0 <
          (((List.range m).map (fun (i : ℕ) => i + 1)).foldl (dominant_step ms) (-1, 0)).1)) := by
  intro m
  induction m with
  | zero =>
    intro _
    exact ⟨fun _ => by simp, fun h => absurd h (by omega)⟩
  | succ m ih =>
    intro hm
    obtain ⟨ih0, ih1⟩ := ih (by omega)
    refine ⟨fun h => absurd h (by omega), fun _ => ?_⟩
    rw [List.range_succ, List.map_append, List.foldl_append]
    simp only [List.map_cons, List.map_nil, List.foldl_cons, List.foldl_nil]
    generalize hst : ((List.range m).map (fun (i : ℕ) => i + 1)).foldl (dominant_step ms) (-1, 0)
      = st at ih0 ih1
    rcases Nat.eq_zero_or_pos m with h0 | h0
    · have hst0 : st = (-1, 0) := ih0 h0
      subst h0
      have hgt : ms.getD 1 0 > (-1 : ℚ) := hpos 1 (le_refl _) (by omega)
      subst hst0
      simp only [dominant_step, zero_add, hgt, if_true]
      refine ⟨le_refl _, le_refl _, trivial, ?_, ?_⟩
      · intro j h1 h2
        have : j = 1 := by omega
        subst this
        exact le_refl _
      · intro j h1 h2
        omega
    · obtain ⟨a1, a2, a3, a4, a5⟩ := ih1 h0
      by_cases hgt : ms.getD (m + 1) 0 > st.1
      · simp only [dominant_step, hgt, if_true]
        refine ⟨by omega, le_refl _, trivial, ?_, ?_⟩
        · intro j h1 h2
          rcases Nat.lt_or_eq_of_le h2 with h | h
          · exact le_of_lt (lt_of_le_of_lt (a4 j h1 (by omega)) hgt)
          · rw [h]
        · intro j h1 h2
          exact lt_of_le_of_lt (a4 j h1 (by omega)) hgt
      · simp only [dominant_step, hgt, if_false]
        refine ⟨a1, by omega, a3, ?_, a5⟩
        intro j h1 h2
        rcases Nat.lt_or_eq_of_le h2 with h | h
        · exact a4 j h1 (by omega)
        · rw [h]
          exact not_lt.mp hgt

/-- The bin chosen by the loop is the first bin `k ≥ 1` of largest magnitude. -/
theorem dominant_loop_spec (ms : List ℚ) (hlen : 2 ≤ ms.length)
    (hpos : ∀ j, 1 ≤ j → j < ms.length → -1 < ms.getD j 0) :
    1 ≤ (dominant_loop ms).2 ∧ (dominant_loop ms).2 ≤ ms.length - 1 ∧
    (∀ j, 1 ≤ j → j ≤ ms.length - 1 → ms.getD j 0 ≤ ms.getD (dominant_loop ms).2 0) ∧
    (∀ j, 1 ≤ j → j < (dominant_loop ms).2 → ms.getD j 0 < ms.getD (dominant_loop ms).2 0) := by
  obtain ⟨_, h⟩ := dominant_fold_spec ms hpos (ms.length - 1) (by omega)
  obtain ⟨a1, a2, a3, a4, a5⟩ := h (by omega)
  simp only [dominant_loop]
  refine ⟨a1, a2, ?_, ?_⟩
  · intro j h1 h2
    rw [← a3]
    exact a4 j h1 h2
  · intro j h1 h2
    rw [← a3]
    exact a5 j h1 h2

theorem length_mags (L : NumericLib) (sig : List ℚ) :
    (mags L sig).length = sig.length / 2 + 1 := by
  simp [mags]

theorem mags_nonneg (L : NumericLib) (sig : List ℚ) (j : ℕ) (hj : j < (mags L sig).length) :
    0 ≤ (mags L sig).getD j 0 := by
  rw [length_mags] at hj
  simp only [mags, List.getD_eq_getElem?_getD, List.getElem?_map, List.getElem?_range hj,
    Option.map_some', Option.getD_some]
  apply L.sqrt_nonneg
  nlinarith [mul_self_nonneg (L.r2c sig j).1, mul_self_nonneg (L.r2c sig j).2]

theorem length_signal (L : NumericLib) (vi : List ℚ) : (signal L vi).length = vi.length := by
  simp [signal]

theorem length_uniform_series (messages : List Json) (key : String) :
    (uniform_series messages key).length = (samples messages key).length := by
  rw [uniform_series, length_resample, length_extract_times]

theorem length_magnitudes (L : NumericLib) (messages : List Json) (key : String) :
    (magnitudes L messages key).length = (samples messages key).length / 2 + 1 := by
  rw [magnitudes, length_mags, length_signal, length_uniform_series]

theorem getD_freqs (dt : ℚ) (M k : ℕ) (hk : k ≤ M / 2) :
    (freqs dt M).getD k 0 = (k : ℚ) / (dt * (M : ℚ)) := by
  have : k < M / 2 + 1 := by omega
  simp [freqs, List.getD_eq_getElem?_getD, List.getElem?_range this]

/-- C6: for a Sample Series of length `M ≥ 2`, once the transform buffers are allocated, the
returned spectrum has length `min 10 (M / 2 + 1)` and is the initial segment of that length of
the magnitude vector, bin 0 first. -/
theorem spectrum_is_prefix (L : NumericLib) (messages : List Json) (key : String)
    (hM : 2 ≤ (samples messages key).length)
    (hin : L.malloc_in = true) (hout : L.malloc_out = true) :
    (compute_stats L messages key).spectrum.length =
      Nat.min 10 ((samples messages key).length / 2 + 1) ∧
    (compute_stats L messages key).spectrum =
      (magnitudes L messages key).take (Nat.min 10 ((samples messages key).length / 2 + 1)) ∧
    (∀ i, i < Nat.min 10 ((samples messages key).length / 2 + 1) →
      (compute_stats L messages key).spectrum[i]? = (magnitudes L messages key)[i]?) := by
  have hlm := length_magnitudes L messages key
  have hspec : (compute_stats L messages key).spectrum =
      (magnitudes L messages key).take (Nat.min 10 ((samples messages key).length / 2 + 1)) := by
    rw [(compute_stats_spectral L messages key hM hin hout).2]
    change spectrum_take (magnitudes L messages key) = _
    rw [spectrum_take, hlm]
  refine ⟨?_, hspec, ?_⟩
  · rw [hspec, List.length_take, hlm]
    exact Nat.min_eq_left (Nat.min_le_right _ _)
  · intro i hi
    rw [hspec, List.getElem?_take_of_lt hi]

theorem spectrum_is_prefix_witness :
    (compute_stats refLib count_batch "vehicle_count").spectrum.length =
      Nat.min 10 ((samples count_batch "vehicle_count").length / 2 + 1) ∧
    (compute_stats refLib count_batch "vehicle_count").spectrum =
      (magnitudes refLib count_batch "vehicle_count").take
        (Nat.min 10 ((samples count_batch "vehicle_count").length / 2 + 1)) ∧
    (∀ i, i < Nat.min 10 ((samples count_batch "vehicle_count").length / 2 + 1) →
      (compute_stats refLib count_batch "vehicle_count").spectrum[i]? =
        (magnitudes refLib count_batch "vehicle_count")[i]?) :=
  spectrum_is_prefix refLib count_batch "vehicle_count" (by decide) rfl rfl

/-! ## Constant signals -/

theorem lower_bound_le_length (times : List ℚ) (tt : ℚ) :
    lower_bound (t_sorted times) tt ≤ times.length := by
  have := (lower_bound_spec (t_sorted times) tt (ascending_t_sorted times)).1
  rw [length_t_sorted] at this
  exact this

/-- Every value of the Uniform Series of a constant Sample Series is that constant. -/
theorem resample_const (values times : List ℚ) (c : ℚ) (hlen : values.length = times.length)
    (hN : 1 ≤ times.length) (hc : ∀ v ∈ values, v = c) :
    ∀ x ∈ resample values times, x = c := by
  have hvs : ∀ j, j < times.length → (v_sorted values times).getD j 0 = c :=
    fun j hj => hc _ (getD_v_sorted_mem values times hlen j hj)
  intro x hx
  simp only [resample, v_interp, List.mem_map] at hx
  obtain ⟨tt, _, rfl⟩ := hx
  have hle := lower_bound_le_length times tt
  simp only [interp_at, length_t_sorted]
  split
  · rw [headD_eq_getD]
    exact hvs 0 (by omega)
  · split
    · rw [getLastD_eq_getD, length_v_sorted]
      exact hvs _ (by omega)
    · rw [hvs _ (by omega), hvs _ (by omega)]
      ring

theorem foldl_add_const (l : List ℚ) (c a : ℚ) (hc : ∀ x ∈ l, x = c) :
    l.foldl (fun s x => s + x) a = a + (l.length : ℚ) * c := by
  induction l generalizing a with
  | nil => simp
  | cons y t ih =>
    have hy : y = c := hc y (List.mem_cons_self _ _)
    rw [List.foldl_cons, ih _ (fun x hx => hc x (List.mem_cons_of_mem _ hx)), hy]
    simp only [List.length_cons, Nat.cast_add, Nat.cast_one]
    ring

theorem foldl_addsq_const (l : List ℚ) (c a : ℚ) (hc : ∀ x ∈ l, x = c) :
    l.foldl (fun s x => s + x * x) a = a + (l.length : ℚ) * (c * c) := by
  induction l generalizing a with
  | nil => simp
  | cons y t ih =>
    have hy : y = c := hc y (List.mem_cons_self _ _)
    rw [List.foldl_cons, ih _ (fun x hx => hc x (List.mem_cons_of_mem _ hx)), hy]
    simp only [List.length_cons, Nat.cast_add, Nat.cast_one]
    ring

theorem foldl_min_const (l : List ℚ) (c : ℚ) (hc : ∀ x ∈ l, x = c) :
    l.foldl (fun m x => if x < m then x else m) c = c := by
  induction l with
  | nil => simp
  | cons y t ih =>
    have hy : y = c := hc y (List.mem_cons_self _ _)
    rw [List.foldl_cons, hy]
    simp only [lt_irrefl, if_false]
    exact ih (fun x hx => hc x (List.mem_cons_of_mem _ hx))

theorem foldl_max_const (l : List ℚ) (c : ℚ) (hc : ∀ x ∈ l, x = c) :
    l.foldl (fun m x => if x > m then x else m) c = c := by
  induction l with
  | nil => simp
  | cons y t ih =>
    have hy : y = c := hc y (List.mem_cons_self _ _)
    rw [List.foldl_cons, hy]
    simp only [gt_iff_lt, lt_irrefl, if_false]
    exact ih (fun x hx => hc x (List.mem_cons_of_mem _ hx))

theorem stats_const (L : NumericLib) (vi : List ℚ) (c : ℚ) (hlen : 1 ≤ vi.length)
    (hc : ∀ x ∈ vi, x = c) :
    stat_mean vi = c ∧ stat_var vi = 0 ∧ stat_stddev L vi = 0 ∧
    stat_vmin vi = c ∧ stat_vmax vi = c := by
  have hne : (vi.length : ℚ) ≠ 0 := by
    have : vi.length ≠ 0 := by omega
    exact_mod_cast this
  have hmean : stat_mean vi = c := by
    rw [stat_mean, stat_sum, foldl_add_const vi c 0 hc, zero_add, mul_comm, mul_div_assoc,
      div_self hne, mul_one]
  have hvar : stat_var vi = 0 := by
    rw [stat_var, hmean, stat_sumsq, foldl_addsq_const vi c 0 hc, zero_add, mul_comm,
      mul_div_assoc, div_self hne, mul_one, sub_self]
  have hhead : vi.headD 0 = c := by
    cases vi with
    | nil => simp at hlen
    | cons a t => exact hc a (List.mem_cons_self _ _)
  refine ⟨hmean, hvar, ?_, ?_, ?_⟩
  · simp [stat_stddev, hvar]
  · rw [stat_vmin, hhead]
    exact foldl_min_const vi c hc
  · rw [stat_vmax, hhead]
    exact foldl_max_const vi c hc

/-- C7, counterexample: in binary64 arithmetic ten samples of 0.1 give a Uniform Series of ten
values 0.1 whose mean is 0.09999999999999999, below 0.1, whose `var` is positive and whose
standard deviation is about 2.28e-9, not 0; the normalized signal is not zero. -/
theorem constant_series_rounding :
    (samples64 tenth_batch "vehicle_count").length = 10 ∧
    (∀ v ∈ extract_values64 tenth_batch "vehicle_count", v = round64 (1 / 10)) ∧
    (∀ x ∈ resample64 (extract_values64 tenth_batch "vehicle_count")
      (extract_times64 tenth_batch "vehicle_count"), x = round64 (1 / 10)) ∧
    (compute_stats64 refLib64 tenth_batch "vehicle_count").mean =
      .fin (7205759403792793 / 72057594037927936) ∧
    (compute_stats64 refLib64 tenth_batch "vehicle_count").mean ≠ round64 (1 / 10) ∧
    (Dbl.fin 0).lt (stat_var64 (resample64 (extract_values64 tenth_batch "vehicle_count")
      (extract_times64 tenth_batch "vehicle_count"))) = true ∧
    (compute_stats64 refLib64 tenth_batch "vehicle_count").std_dev =
      .fin (2757880273211543 / 1208925819614629174706176) ∧
    (compute_stats64 refLib64 tenth_batch "vehicle_count").std_dev ≠ .fin 0 ∧
    (signal64 refLib64 (resample64 (extract_values64 tenth_batch "vehicle_count")
      (extract_times64 tenth_batch "vehicle_count"))).getD 0 (.fin 0) ≠ .fin 0 := by
  decide!

/-- C7, amended: in exact arithmetic, for a Sample Series of length at least 2 whose values are
all equal to `c`, `compute_stats` returns a standard deviation of exactly 0 with mean, minimum
and maximum `c`; the normalization divides by `0 + 1e-12`, which is not zero, and the
normalized signal is all zeros. -/
theorem constant_series_stats (L : NumericLib) (messages : List Json) (key : String) (c : ℚ)
    (hM : 2 ≤ (samples messages key).length)
    (hc : ∀ v ∈ extract_values messages key, v = c) :
    (compute_stats L messages key).std_dev = some 0 ∧
    (compute_stats L messages key).mean = some c ∧
    (compute_stats L messages key).min = some c ∧
    (compute_stats L messages key).max = some c ∧
    norm_denom L (uniform_series messages key) = 0 + 1 / 1000000000000 ∧
    norm_denom L (uniform_series messages key) ≠ 0 ∧
    (∀ x ∈ signal L (uniform_series messages key), x = 0) := by
  have hl : (extract_values messages key).length = (extract_times messages key).length := by
    rw [length_extract_values, length_extract_times]
  have hN : 2 ≤ (extract_times messages key).length := by
    rw [length_extract_times]
    exact hM
  have hvi : ∀ x ∈ uniform_series messages key, x = c :=
    resample_const _ _ c hl (by omega) hc
  have hlen : 1 ≤ (uniform_series messages key).length := by
    rw [length_uniform_series]
    omega
  obtain ⟨hmean, _, hsd, hmin, hmax⟩ := stats_const L (uniform_series messages key) c hlen hvi
  obtain ⟨b1, b2, b3, b4⟩ := compute_stats_basic L messages key hM
  have hden : norm_denom L (uniform_series messages key) = 0 + 1 / 1000000000000 := by
    rw [norm_denom, hsd, mul_zero, L.sqrt_zero]
  refine ⟨?_, ?_, ?_, ?_, hden, ?_, ?_⟩
  · rw [b2]
    exact congrArg some hsd
  · rw [b1]
    exact congrArg some hmean
  · rw [b3]
    exact congrArg some hmin
  · rw [b4]
    exact congrArg some hmax
  · rw [hden]
    norm_num
  · intro x hx
    simp only [signal, List.mem_map] at hx
    obtain ⟨y, hy, rfl⟩ := hx
    rw [hvi y hy, hmean, sub_self, zero_div]

theorem constant_series_stats_witness :
    (compute_stats refLib steady_batch "vehicle_count").std_dev = some 0 ∧
    (compute_stats refLib steady_batch "vehicle_count").mean = some 3 ∧
    (compute_stats refLib steady_batch "vehicle_count").min = some 3 ∧
    (compute_stats refLib steady_batch "vehicle_count").max = some 3 ∧
    norm_denom refLib (uniform_series steady_batch "vehicle_count") = 0 + 1 / 1000000000000 ∧
    norm_denom refLib (uniform_series steady_batch "vehicle_count") ≠ 0 ∧
    (∀ x ∈ signal refLib (uniform_series steady_batch "vehicle_count"), x = 0) :=
  constant_series_stats refLib steady_batch "vehicle_count" 3 (by decide) (by decide)

/-! ## `process_key` -/

theorem store_set_self (s : Store) (k : String) (v : Payload) : s.set k v k = some v := by
  simp [Store.set]

theorem store_set_other (s : Store) (k k' : String) (v : Payload) (h : k' ≠ k) :
    s.set k v k' = s k' := by
  simp [Store.set, h]

/-- The record built by `process_key` has an entry for each of the three metrics. -/
theorem result_record_entries (L : NumericLib) (items : List Json) :
    (result_record L items).at_ "vehicle_count" =
      some (fill_stats (compute_stats L items "vehicle_count")) ∧
    (result_record L items).at_ "avg_speed" =
      some (fill_stats (compute_stats L items "avg_speed")) ∧
    (result_record L items).at_ "occupancy" =
      some (fill_stats (compute_stats L items "occupancy")) := by
  simp [result_record, Json.set, setField, Json.at_, List.lookup]

/-- C8: `process_key` leaves the store as it is when the payload under `k` is absent,
unparsable or not an array; otherwise it stores under `k ++ "_processed"` the serialized record
that has an entry for each of `vehicle_count`, `avg_speed` and `occupancy`, and leaves every
other key as it is. -/
theorem process_key_frame (L : NumericLib) (store : Store) (k : String) :
    (store.get k = none → process_key L store k = store) ∧
    (∀ raw, store.get k = some raw → raw.parse = none → process_key L store k = store) ∧
    (∀ raw j, store.get k = some raw → raw.parse = some j → j.is_array = false →
      process_key L store k = store) ∧
    (∀ raw items, store.get k = some raw → raw.parse = some (.arr items) →
      (process_key L store k).get (k ++ "_processed") = some (result_record L items).dump ∧
      (result_record L items).at_ "vehicle_count" =
        some (fill_stats (compute_stats L items "vehicle_count")) ∧
      (result_record L items).at_ "avg_speed" =
        some (fill_stats (compute_stats L items "avg_speed")) ∧
      (result_record L items).at_ "occupancy" =
        some (fill_stats (compute_stats L items "occupancy")) ∧
      (∀ k', k' ≠ k ++ "_processed" → (process_key L store k).get k' = store.get k')) := by
  refine ⟨?_, ?_, ?_, ?_⟩
  · intro h
    simp [process_key, h]
  · intro raw h1 h2
    simp [process_key, h1, h2]
  · intro raw j h1 h2 h3
    cases j with
    | arr items => simp [Json.is_array] at h3
    | _ => simp [process_key, h1, h2]
  · intro raw items h1 h2
    obtain ⟨e1, e2, e3⟩ := result_record_entries L items
    have hp : process_key L store k =
        store.set (k ++ "_processed") (result_record L items).dump := by
      simp only [process_key, h1, h2]
    refine ⟨?_, e1, e2, e3, ?_⟩
    · rw [hp]
      exact store_set_self _ _ _
    · intro k' hk'
      rw [hp]
      exact store_set_other _ _ _ _ hk'

theorem process_key_frame_witness :
    (process_key refLib one_batch_store "telemetry_1").get ("telemetry_1" ++ "_processed") =
      some (result_record refLib count_batch).dump ∧
    (result_record refLib count_batch).at_ "vehicle_count" =
      some (fill_stats (compute_stats refLib count_batch "vehicle_count")) ∧
    (result_record refLib count_batch).at_ "avg_speed" =
      some (fill_stats (compute_stats refLib count_batch "avg_speed")) ∧
    (result_record refLib count_batch).at_ "occupancy" =
      some (fill_stats (compute_stats refLib count_batch "occupancy")) ∧
    (∀ k', k' ≠ "telemetry_1" ++ "_processed" →
      (process_key refLib one_batch_store "telemetry_1").get k' = one_batch_store.get k') :=
  (process_key_frame refLib one_batch_store "telemetry_1").2.2.2
    (.json (.arr count_batch)) count_batch rfl rfl

/-! ## Independence across keys -/

theorem process_key_eq (L : NumericLib) (store : Store) (k : String) :
    process_key L store k =
      match write_of L (store k) with
      | none => store
      | some v => store.set (k ++ "_processed") v := by
  simp only [process_key, Store.get]
  cases h : store k with
  | none => simp [write_of]
  | some raw =>
    cases raw with
    | text s => simp [Payload.parse, write_of]
    | json j => cases j <;> simp [Payload.parse, write_of]

theorem append_suffix_ne (a b s : String) (h : a ≠ b) : a ++ s ≠ b ++ s := by
  intro he
  apply h
  have hd : (a ++ s).data = (b ++ s).data := congrArg String.data he
  rw [String.data_append, String.data_append] at hd
  exact String.ext (List.append_cancel_right hd)

theorem store_set_comm (s : Store) (k1 k2 : String) (v1 v2 : Payload) (h : k1 ≠ k2) :
    (s.set k1 v1).set k2 v2 = (s.set k2 v2).set k1 v1 := by
  funext k
  simp only [Store.set]
  by_cases h1 : k = k1
  · by_cases h2 : k = k2
    · exact absurd (h1.symm.trans h2) h
    · simp [h1, h]
  · by_cases h2 : k = k2
    · simp [h2, Ne.symm h]
    · simp [h1, h2]

theorem write_of_eq_none (L : NumericLib) (p : Option Payload) :
    write_of L p = none ↔ holds_batch p = false := by
  cases p with
  | none => simp [write_of, holds_batch]
  | some raw =>
    cases raw with
    | text s => simp [write_of, holds_batch]
    | json j => cases j <;> simp [write_of, holds_batch]

theorem write_of_dump (L : NumericLib) (items : List Json) :
    write_of L (some (result_record L items).dump) = none := by
  simp [result_record, Json.set, setField, Json.dump, write_of]

/-- What `process_key` writes is never read back as a batch. -/
theorem write_of_write_of (L : NumericLib) (p : Option Payload) (v : Payload)
    (h : write_of L p = some v) : write_of L (some v) = none := by
  cases p with
  | none => simp [write_of] at h
  | some raw =>
    cases raw with
    | text s => simp [write_of] at h
    | json j =>
      cases j with
      | arr items =>
        simp only [write_of, Option.some.injEq] at h
        rw [← h]
        exact write_of_dump L items
      | _ => simp [write_of] at h

/-- The payload `process_key` reads under `b` after `a` has been processed is no batch
whenever it differs from the one stored before, provided that `b`, if it is `a` followed by
`_processed`, held no batch. -/
theorem write_of_after (L : NumericLib) (store : Store) (a b : String)
    (hb : b = a ++ "_processed" → write_of L (store b) = none) :
    write_of L ((process_key L store a) b) = write_of L (store b) := by
  rw [process_key_eq L store a]
  cases hw : write_of L (store a) with
  | none => rfl
  | some v =>
    by_cases h : b = a ++ "_processed"
    · simp only [h, store_set_self]
      rw [write_of_write_of L _ v hw, ← h, hb h]
    · simp only [store_set_other _ _ _ _ h]

/-- Two keys are processed independently unless one of them is the other followed by
`_processed` and holds a batch. -/
theorem process_key_comm (L : NumericLib) (store : Store) (a b : String)
    (hb' : b = a ++ "_processed" → holds_batch (store b) = false)
    (ha' : a = b ++ "_processed" → holds_batch (store a) = false) :
    process_key L (process_key L store a) b = process_key L (process_key L store b) a := by
  have hb : b = a ++ "_processed" → write_of L (store b) = none :=
    fun h => (write_of_eq_none L _).mpr (hb' h)
  have ha : a = b ++ "_processed" → write_of L (store a) = none :=
    fun h => (write_of_eq_none L _).mpr (ha' h)
  by_cases heq : a = b
  · rw [heq]
  · have hne : a ++ "_processed" ≠ b ++ "_processed" := append_suffix_ne a b "_processed" heq
    rw [process_key_eq L (process_key L store a) b, process_key_eq L (process_key L store b) a,
      write_of_after L store a b hb, write_of_after L store b a ha]
    cases hwa : write_of L (store a) with
    | none =>
      cases hwb : write_of L (store b) with
      | none =>
        simp only [process_key_eq L store a, process_key_eq L store b, hwa, hwb]
      | some vb =>
        simp only [process_key_eq L store a, process_key_eq L store b, hwa, hwb]
    | some va =>
      cases hwb : write_of L (store b) with
      | none =>
        simp only [process_key_eq L store a, process_key_eq L store b, hwa, hwb]
      | some vb =>
        simp only [process_key_eq L store a, process_key_eq L store b, hwa, hwb]
        exact store_set_comm _ _ _ _ _ hne

theorem no_batch_at_outputs_step (L : NumericLib) (keys : List String) (s : Store)
    (h : no_batch_at_outputs keys s) (k : String) :
    no_batch_at_outputs keys (process_key L s k) := by
  intro x hx y hy hxy
  rw [process_key_eq L s k]
  cases hw : write_of L (s k) with
  | none => exact h x hx y hy hxy
  | some v =>
    by_cases hk : x = k ++ "_processed"
    · simp only [hk, store_set_self]
      exact (write_of_eq_none L _).mp (write_of_write_of L _ v hw)
    · simp only [store_set_other _ _ _ _ hk]
      exact h x hx y hy hxy

theorem foldl_perm_of_invariant {α β : Type} (f : β → α → β) (P : β → Prop)
    {l₁ l₂ : List α} (p : l₁.Perm l₂)
    (hP : ∀ z, P z → ∀ x, P (f z x))
    (comm : ∀ x ∈ l₁, ∀ y ∈ l₁, ∀ z, P z → f (f z x) y = f (f z y) x) :
    ∀ init, P init → l₁.foldl f init = l₂.foldl f init := by
  induction p with
  | nil =>
    intro init _
    rfl
  | cons x _ ih =>
    intro init hi
    simp only [List.foldl_cons]
    exact ih (fun a ha b hb z hz =>
      comm a (List.mem_cons_of_mem _ ha) b (List.mem_cons_of_mem _ hb) z hz) _ (hP _ hi x)
  | swap x y l =>
    intro init hi
    simp only [List.foldl_cons]
    rw [comm y (List.mem_cons_self _ _) x (List.mem_cons_of_mem _ (List.mem_cons_self _ _))
      init hi]
  | trans p1 _ ih1 ih2 =>
    intro init hi
    rw [ih1 comm init hi]
    exact ih2 (fun a ha b hb z hz =>
      comm a (p1.mem_iff.mpr ha) b (p1.mem_iff.mpr hb) z hz) init hi

/-- C9, counterexample: with an array stored under both `telemetry_x` and
`telemetry_x_processed`, processing `telemetry_x` first overwrites the second batch before it is
read, so no result is written under `telemetry_x_processed_processed`; in the other order one
is.  The same holds for the sequential pass over the two keys in the two orders. -/
theorem process_key_order_dependent :
    matches_pattern "telemetry_x" = true ∧
    matches_pattern "telemetry_x_processed" = true ∧
    "telemetry_x" ≠ "telemetry_x_processed" ∧
    ((process_key refLib (process_key refLib aliased_store "telemetry_x")
      "telemetry_x_processed").get "telemetry_x_processed_processed").isSome = false ∧
    ((process_key refLib (process_key refLib aliased_store "telemetry_x_processed")
      "telemetry_x").get "telemetry_x_processed_processed").isSome = true ∧
    ((process_all_files_sync refLib ["telemetry_x", "telemetry_x_processed"]
      aliased_store).get "telemetry_x_processed_processed").isSome = false ∧
    ((process_all_files_sync refLib ["telemetry_x_processed", "telemetry_x"]
      aliased_store).get "telemetry_x_processed_processed").isSome = true := by
  refine ⟨by decide, by decide, by decide, ?_, ?_, ?_, ?_⟩
  · decide
  · decide
  · decide
  · decide

/-- C9, amended: two keys are processed with the same final store in either order unless one
of them is the other followed by `_processed` and holds a batch (an array payload); hence a
sequential pass ends in the same store whatever the order of the listed keys, provided no
listed key that is another listed key followed by `_processed` holds a batch. -/
theorem process_key_independent (L : NumericLib) (store : Store) (keys keys' : List String)
    (hperm : keys.Perm keys')
    (hind : ∀ x ∈ keys, ∀ y ∈ keys, x = y ++ "_processed" → holds_batch (store x) = false) :
    (∀ a ∈ keys, ∀ b ∈ keys,
      process_key L (process_key L store a) b = process_key L (process_key L store b) a) ∧
    process_all_files_sync L keys store = process_all_files_sync L keys' store := by
  have hcomm : ∀ a ∈ keys, ∀ b ∈ keys, ∀ s : Store, no_batch_at_outputs keys s →
      process_key L (process_key L s a) b = process_key L (process_key L s b) a :=
    fun a ha b hb s hs => process_key_comm L s a b (hs b hb a ha) (hs a ha b hb)
  refine ⟨fun a ha b hb => hcomm a ha b hb store hind, ?_⟩
  have hfold := foldl_perm_of_invariant (process_key L) (no_batch_at_outputs keys) hperm
    (fun z hz x => no_batch_at_outputs_step L keys z hz x) hcomm store hind
  have hempty : keys.isEmpty = keys'.isEmpty := by
    cases keys with
    | nil =>
      have := hperm.length_eq
      cases keys' with
      | nil => rfl
      | cons _ _ => simp at this
    | cons a t =>
      have := hperm.length_eq
      cases keys' with
      | nil => simp at this
      | cons _ _ => rfl
  simp only [process_all_files_sync, hempty, hfold]

theorem process_key_independent_witness :
    (∀ a ∈ ["telemetry_1", "telemetry_1_processed"],
      ∀ b ∈ ["telemetry_1", "telemetry_1_processed"],
      process_key refLib (process_key refLib second_pass_store a) b =
        process_key refLib (process_key refLib second_pass_store b) a) ∧
    process_all_files_sync refLib ["telemetry_1", "telemetry_1_processed"] second_pass_store =
      process_all_files_sync refLib ["telemetry_1_processed", "telemetry_1"]
        second_pass_store :=
  process_key_independent refLib second_pass_store ["telemetry_1", "telemetry_1_processed"]
    ["telemetry_1_processed", "telemetry_1"] (by decide) (by decide)

/-! ## No extrapolation -/

/-- The three cases of the interpolation loop body. -/
theorem interp_at_cases (values times : List ℚ) (tt : ℚ) :
    interp_at (t_sorted times) (v_sorted values times) tt = (v_sorted values times).headD 0 ∨
    interp_at (t_sorted times) (v_sorted values times) tt = (v_sorted values times).getLastD 0 ∨
    ∃ (j : ℕ) (a : ℚ), j + 1 < times.length ∧ 0 < a ∧ a ≤ 1 ∧
      interp_at (t_sorted times) (v_sorted values times) tt =
        (v_sorted values times).getD j 0 +
          a * ((v_sorted values times).getD (j + 1) 0 - (v_sorted values times).getD j 0) := by
  obtain ⟨h1, h2, h3⟩ := lower_bound_spec (t_sorted times) tt (ascending_t_sorted times)
  rw [length_t_sorted] at h1 h3
  by_cases hz : lower_bound (t_sorted times) tt = 0
  · left
    simp [interp_at, hz]
  · by_cases hn : lower_bound (t_sorted times) tt = times.length
    · right
      left
      simp only [interp_at]
      rw [if_neg hz, if_pos (by rw [length_t_sorted]; exact hn)]
    · right
      right
      have hlt : lower_bound (t_sorted times) tt < times.length := by omega
      have hlo : (t_sorted times).getD (lower_bound (t_sorted times) tt - 1) 0 < tt :=
        h2 _ (by omega)
      have hhi : tt ≤ (t_sorted times).getD (lower_bound (t_sorted times) tt) 0 :=
        h3 _ (le_refl _) hlt
      have hden : 0 < (t_sorted times).getD (lower_bound (t_sorted times) tt) 0 -
          (t_sorted times).getD (lower_bound (t_sorted times) tt - 1) 0 := by linarith
      have hsucc : lower_bound (t_sorted times) tt - 1 + 1 = lower_bound (t_sorted times) tt := by
        omega
      refine ⟨lower_bound (t_sorted times) tt - 1,
        (tt - (t_sorted times).getD (lower_bound (t_sorted times) tt - 1) 0) /
          ((t_sorted times).getD (lower_bound (t_sorted times) tt) 0 -
            (t_sorted times).getD (lower_bound (t_sorted times) tt - 1) 0),
        by omega, div_pos (by linarith) hden, ?_, ?_⟩
      · rw [div_le_one hden]
        linarith
      · rw [hsucc]
        simp only [interp_at, hz, hn, length_t_sorted, if_false]

theorem convex_bounds (lo hi v0 v1 a : ℚ) (h0 : lo ≤ v0 ∧ v0 ≤ hi) (h1 : lo ≤ v1 ∧ v1 ≤ hi)
    (ha0 : 0 < a) (ha1 : a ≤ 1) : lo ≤ v0 + a * (v1 - v0) ∧ v0 + a * (v1 - v0) ≤ hi := by
  have e : v0 + a * (v1 - v0) = (1 - a) * v0 + a * v1 := by ring
  rw [e]
  have hb : 0 ≤ 1 - a := by linarith
  constructor
  · nlinarith [mul_le_mul_of_nonneg_left h0.1 hb, mul_le_mul_of_nonneg_left h1.1 (le_of_lt ha0)]
  · nlinarith [mul_le_mul_of_nonneg_left h0.2 hb, mul_le_mul_of_nonneg_left h1.2 (le_of_lt ha0)]

theorem foldl_min_bounds (l : List ℚ) (lo hi m : ℚ) (hm : lo ≤ m ∧ m ≤ hi)
    (hl : ∀ x ∈ l, lo ≤ x ∧ x ≤ hi) :
    lo ≤ l.foldl (fun m x => if x < m then x else m) m ∧
    l.foldl (fun m x => if x < m then x else m) m ≤ hi := by
  induction l generalizing m with
  | nil => exact hm
  | cons y t ih =>
    rw [List.foldl_cons]
    apply ih
    · split
      · exact hl y (List.mem_cons_self _ _)
      · exact hm
    · exact fun x hx => hl x (List.mem_cons_of_mem _ hx)

theorem foldl_max_bounds (l : List ℚ) (lo hi m : ℚ) (hm : lo ≤ m ∧ m ≤ hi)
    (hl : ∀ x ∈ l, lo ≤ x ∧ x ≤ hi) :
    lo ≤ l.foldl (fun m x => if x > m then x else m) m ∧
    l.foldl (fun m x => if x > m then x else m) m ≤ hi := by
  induction l generalizing m with
  | nil => exact hm
  | cons y t ih =>
    rw [List.foldl_cons]
    apply ih
    · split
      · exact hl y (List.mem_cons_self _ _)
      · exact hm
    · exact fun x hx => hl x (List.mem_cons_of_mem _ hx)

theorem foldl_add_bounds (l : List ℚ) (lo hi a : ℚ) (hl : ∀ x ∈ l, lo ≤ x ∧ x ≤ hi) :
    a + (l.length : ℚ) * lo ≤ l.foldl (fun s x => s + x) a ∧
    l.foldl (fun s x => s + x) a ≤ a + (l.length : ℚ) * hi := by
  induction l generalizing a with
  | nil => simp
  | cons y t ih =>
    rw [List.foldl_cons]
    obtain ⟨h1, h2⟩ := ih (a + y) (fun x hx => hl x (List.mem_cons_of_mem _ hx))
    obtain ⟨hy1, hy2⟩ := hl y (List.mem_cons_self _ _)
    simp only [List.length_cons, Nat.cast_add, Nat.cast_one]
    constructor
    · linarith
    · linarith

theorem stats_bounds (vi : List ℚ) (lo hi : ℚ) (hlen : 1 ≤ vi.length)
    (hl : ∀ x ∈ vi, lo ≤ x ∧ x ≤ hi) :
    (lo ≤ stat_vmin vi ∧ stat_vmin vi ≤ hi) ∧ (lo ≤ stat_vmax vi ∧ stat_vmax vi ≤ hi) ∧
    (lo ≤ stat_mean vi ∧ stat_mean vi ≤ hi) := by
  have hhead : lo ≤ vi.headD 0 ∧ vi.headD 0 ≤ hi := by
    cases vi with
    | nil => simp at hlen
    | cons a t => exact hl a (List.mem_cons_self _ _)
  have hpos : (0 : ℚ) < (vi.length : ℚ) := by
    have : 0 < vi.length := by omega
    exact_mod_cast this
  obtain ⟨s1, s2⟩ := foldl_add_bounds vi lo hi 0 hl
  rw [zero_add] at s1 s2
  refine ⟨foldl_min_bounds vi lo hi _ hhead hl, foldl_max_bounds vi lo hi _ hhead hl, ?_, ?_⟩
  · rw [stat_mean, stat_sum, le_div_iff₀ hpos]
    linarith
  · rw [stat_mean, stat_sum, div_le_iff₀ hpos]
    linarith

/-- C10, counterexample: in binary64 arithmetic the samples 26.4 at time 0 and 106.2 at time 1
give the Uniform Series `26.4, 26.4 + 1 * (106.2 - 26.4)`, whose last value and the returned
maximum are 106.20000000000002, above the largest input value 106.2. -/
theorem resample_rounding_exceeds :
    extract_values64 wide_batch "vehicle_count" = [round64 (264 / 10), round64 (1062 / 10)] ∧
    resample64 (extract_values64 wide_batch "vehicle_count")
      (extract_times64 wide_batch "vehicle_count") =
      [round64 (264 / 10), .fin (3736580315833959 / 35184372088832)] ∧
    (round64 (1062 / 10)).lt (.fin (3736580315833959 / 35184372088832)) = true ∧
    (compute_stats64 refLib64 wide_batch "vehicle_count").max =
      .fin (3736580315833959 / 35184372088832) := by
  decide!

/-- C10, amended: in exact arithmetic, for a Sample Series of length `M ≥ 2`, every value of the
Uniform Series is the first sorted value, the last sorted value, or `v0 + a * (v1 - v0)` with
`0 < a ≤ 1` for two adjacent sorted samples `v0`, `v1`; hence every Uniform Series value and
the returned minimum, maximum and mean lie between any lower and upper bound of the input
values, in particular between the smallest and the largest of them. -/
theorem resample_no_extrapolation (L : NumericLib) (messages : List Json) (key : String)
    (lo hi : ℚ) (hM : 2 ≤ (samples messages key).length)
    (hb : ∀ v ∈ extract_values messages key, lo ≤ v ∧ v ≤ hi) :
    (∀ x ∈ uniform_series messages key,
      x = (v_sorted (extract_values messages key) (extract_times messages key)).headD 0 ∨
      x = (v_sorted (extract_values messages key) (extract_times messages key)).getLastD 0 ∨
      ∃ (j : ℕ) (a : ℚ), j + 1 < (samples messages key).length ∧ 0 < a ∧ a ≤ 1 ∧
        x = (v_sorted (extract_values messages key) (extract_times messages key)).getD j 0 +
          a * ((v_sorted (extract_values messages key) (extract_times messages key)).getD
                (j + 1) 0 -
              (v_sorted (extract_values messages key) (extract_times messages key)).getD j 0)) ∧
    (∀ x ∈ uniform_series messages key, lo ≤ x ∧ x ≤ hi) ∧
    (∃ m, (compute_stats L messages key).min = some m ∧ lo ≤ m ∧ m ≤ hi) ∧
    (∃ m, (compute_stats L messages key).max = some m ∧ lo ≤ m ∧ m ≤ hi) ∧
    (∃ m, (compute_stats L messages key).mean = some m ∧ lo ≤ m ∧ m ≤ hi) := by
  have hl : (extract_values messages key).length = (extract_times messages key).length := by
    rw [length_extract_values, length_extract_times]
  have hN : (extract_times messages key).length = (samples messages key).length :=
    length_extract_times messages key
  have hvs : ∀ j, j < (samples messages key).length →
      lo ≤ (v_sorted (extract_values messages key) (extract_times messages key)).getD j 0 ∧
      (v_sorted (extract_values messages key) (extract_times messages key)).getD j 0 ≤ hi :=
    fun j hj => hb _ (getD_v_sorted_mem _ _ hl j (by omega))
  have hcases : ∀ x ∈ uniform_series messages key,
      x = (v_sorted (extract_values messages key) (extract_times messages key)).headD 0 ∨
      x = (v_sorted (extract_values messages key) (extract_times messages key)).getLastD 0 ∨
      ∃ (j : ℕ) (a : ℚ), j + 1 < (samples messages key).length ∧ 0 < a ∧ a ≤ 1 ∧
        x = (v_sorted (extract_values messages key) (extract_times messages key)).getD j 0 +
          a * ((v_sorted (extract_values messages key) (extract_times messages key)).getD
                (j + 1) 0 -
              (v_sorted (extract_values messages key) (extract_times messages key)).getD j 0) := by
    intro x hx
    simp only [uniform_series, resample, v_interp, List.mem_map] at hx
    obtain ⟨tt, _, rfl⟩ := hx
    have := interp_at_cases (extract_values messages key) (extract_times messages key) tt
    rw [hN] at this
    exact this
  have hbounds : ∀ x ∈ uniform_series messages key, lo ≤ x ∧ x ≤ hi := by
    intro x hx
    rcases hcases x hx with h | h | ⟨j, a, hj, ha0, ha1, h⟩
    · rw [h, headD_eq_getD]
      exact hvs 0 (by omega)
    · rw [h, getLastD_eq_getD, length_v_sorted, hN]
      exact hvs _ (by omega)
    · rw [h]
      exact convex_bounds lo hi _ _ a (hvs j (by omega)) (hvs (j + 1) hj) ha0 ha1
  have hlen : 1 ≤ (uniform_series messages key).length := by
    rw [length_uniform_series]
    omega
  obtain ⟨smin, smax, smean⟩ := stats_bounds (uniform_series messages key) lo hi hlen hbounds
  obtain ⟨b1, _, b3, b4⟩ := compute_stats_basic L messages key hM
  exact ⟨hcases, hbounds, ⟨_, b3, smin⟩, ⟨_, b4, smax⟩, ⟨_, b1, smean⟩⟩

theorem resample_no_extrapolation_witness :
    (∀ x ∈ uniform_series count_batch "vehicle_count",
      x = (v_sorted (extract_values count_batch "vehicle_count")
            (extract_times count_batch "vehicle_count")).headD 0 ∨
      x = (v_sorted (extract_values count_batch "vehicle_count")
            (extract_times count_batch "vehicle_count")).getLastD 0 ∨
      ∃ (j : ℕ) (a : ℚ), j + 1 < (samples count_batch "vehicle_count").length ∧ 0 < a ∧ a ≤ 1 ∧
        x = (v_sorted (extract_values count_batch "vehicle_count")
              (extract_times count_batch "vehicle_count")).getD j 0 +
          a * ((v_sorted (extract_values count_batch "vehicle_count")
                (extract_times count_batch "vehicle_count")).getD (j + 1) 0 -
              (v_sorted (extract_values count_batch "vehicle_count")
                (extract_times count_batch "vehicle_count")).getD j 0)) ∧
    (∀ x ∈ uniform_series count_batch "vehicle_count", 1 ≤ x ∧ x ≤ 5) ∧
    (∃ m, (compute_stats refLib count_batch "vehicle_count").min = some m ∧ 1 ≤ m ∧ m ≤ 5) ∧
    (∃ m, (compute_stats refLib count_batch "vehicle_count").max = some m ∧ 1 ≤ m ∧ m ≤ 5) ∧
    (∃ m, (compute_stats refLib count_batch "vehicle_count").mean = some m ∧ 1 ≤ m ∧ m ≤ 5) :=
  resample_no_extrapolation refLib count_batch "vehicle_count" 1 5 (by decide) (by decide)

/-! ## Divisors -/

theorem grid_tmax_pos (ts : List ℚ) : 0 < grid_tmax ts := by
  simp only [grid_tmax]
  split
  · norm_num
  · rename_i h
    exact not_le.mp h

/-- On the interpolating branch of the loop body the divisor `t1_ - t0_` is positive, for
every `tt` and whatever the timestamps. -/
theorem interp_divisor_pos (times : List ℚ) (tt : ℚ)
    (hz : lower_bound (t_sorted times) tt ≠ 0)
    (hn : lower_bound (t_sorted times) tt ≠ (t_sorted times).length) :
    0 < (t_sorted times).getD (lower_bound (t_sorted times) tt) 0 -
      (t_sorted times).getD (lower_bound (t_sorted times) tt - 1) 0 := by
  obtain ⟨h1, h2, h3⟩ := lower_bound_spec (t_sorted times) tt (ascending_t_sorted times)
  have hlo := h2 (lower_bound (t_sorted times) tt - 1) (by omega)
  have hhi := h3 (lower_bound (t_sorted times) tt) (le_refl _) (by omega)
  linarith

theorem norm_denom_pos (L : NumericLib) (vi : List ℚ) : 0 < norm_denom L vi := by
  have h := L.sqrt_nonneg (stat_stddev L vi * stat_stddev L vi) (mul_self_nonneg _)
  simp only [norm_denom]
  linarith [h, (by norm_num : (0 : ℚ) < 1 / 1000000000000)]

theorem grid_dt_pos (ts : List ℚ) (M : ℕ) (hN : 2 ≤ ts.length) (hM : 2 ≤ M) :
    0 < grid_dt (uniform_t ts) M := by
  have hgt : M > 1 := by omega
  have h0 : 0 < ts.length := by omega
  have h1 : 1 < ts.length := by omega
  have hpos : (0 : ℚ) < ((ts.length - 1 : ℕ) : ℚ) := by
    have : 0 < ts.length - 1 := by omega
    exact_mod_cast this
  simp only [grid_dt, hgt, if_true, uniform_t, List.getD_eq_getElem?_getD, List.getElem?_map,
    List.getElem?_range h0, List.getElem?_range h1, Option.map_some', Option.getD_some]
  have := div_pos (grid_tmax_pos ts) hpos
  simpa using this

/-- The batch `tied_batch` has two equal timestamps, and its grid point 1 is interpolated
between the sorted samples at positions 1 and 2, at rebased times 0 and 2. -/
theorem tied_batch_interpolates :
    t_sorted (extract_times tied_batch "vehicle_count") = [0, 0, 2] ∧
    uniform_t (t_sorted (extract_times tied_batch "vehicle_count")) = [0, 1, 2] ∧
    lower_bound (t_sorted (extract_times tied_batch "vehicle_count")) 1 = 2 := by
  decide!

theorem length_sorted_times (times : List ℚ) : (sorted_times times).length = times.length := by
  simp [sorted_times, length_sorted_idx]

theorem t_sorted_eq_sorted_times (times : List ℚ) :
    t_sorted times = (sorted_times times).map (fun tt => tt - (sorted_times times).headD 0) :=
  rfl

/-- With evenly spaced sorted timestamps the rebased time at position `i` is `i * h`. -/
theorem getD_t_sorted_of_even (times : List ℚ) (h : ℚ)
    (heven : ∀ i, i < times.length →
      (sorted_times times).getD i 0 = (sorted_times times).getD 0 0 + (i : ℚ) * h)
    (i : ℕ) (hi : i < times.length) : (t_sorted times).getD i 0 = (i : ℚ) * h := by
  rw [t_sorted_eq_sorted_times, getD_map_sub _ _ i (by rw [length_sorted_times]; exact hi),
    headD_eq_getD, heven i hi]
  ring

/-- With evenly spaced sorted timestamps the grid is the vector of rebased timestamps. -/
theorem uniform_t_of_even (times : List ℚ) (h : ℚ) (hN : 2 ≤ times.length) (hh : 0 < h)
    (heven : ∀ i, i < times.length →
      (sorted_times times).getD i 0 = (sorted_times times).getD 0 0 + (i : ℚ) * h) :
    uniform_t (t_sorted times) = t_sorted times := by
  have hlen := length_t_sorted times
  have hts := getD_t_sorted_of_even times h heven
  have hne : ((times.length - 1 : ℕ) : ℚ) ≠ 0 := by
    have : times.length - 1 ≠ 0 := by omega
    exact_mod_cast this
  have hpos : (0 : ℚ) < ((times.length - 1 : ℕ) : ℚ) := by
    have : 0 < times.length - 1 := by omega
    exact_mod_cast this
  have htmax : grid_tmax (t_sorted times) = ((times.length - 1 : ℕ) : ℚ) * h := by
    have hl : (t_sorted times).getLastD 0 = ((times.length - 1 : ℕ) : ℚ) * h := by
      rw [getLastD_eq_getD, hlen, hts _ (by omega)]
    simp only [grid_tmax, hl]
    rw [if_neg (not_le.mpr (mul_pos hpos hh))]
  apply List.ext_getElem
  · rw [length_uniform_t]
  · intro i h1 h2
    have hi : i < times.length := by rw [← hlen]; exact h2
    have hget : (t_sorted times)[i] = (i : ℚ) * h := by
      have := hts i hi
      rw [List.getD_eq_getElem?_getD, List.getElem?_eq_getElem h2] at this
      simpa using this
    rw [hget]
    simp only [uniform_t, List.getElem_map, List.getElem_range, hlen, htmax]
    rw [div_eq_iff hne]
    ring

/-- C12: for a Sample Series of length `M ≥ 2` whose sorted timestamps are evenly spaced,
`t_i = t_0 + i * h` with `h > 0`, the grid points are the rebased timestamps and the Uniform
Series is the vector of time-sorted input values, element for element (arithmetic being
exact). -/
theorem resample_identity_of_even (values times : List ℚ) (h : ℚ)
    (hlen : values.length = times.length) (hM : 2 ≤ values.length) (hh : 0 < h)
    (heven : ∀ i, i < times.length →
      (sorted_times times).getD i 0 = (sorted_times times).getD 0 0 + (i : ℚ) * h) :
    uniform_t (t_sorted times) = t_sorted times ∧
    resample values times = v_sorted values times := by
  have hN : 2 ≤ times.length := hlen ▸ hM
  have hgrid := uniform_t_of_even times h hN hh heven
  have hts := getD_t_sorted_of_even times h heven
  have hlt := length_t_sorted times
  have hlv := length_v_sorted values times
  have hasc := ascending_t_sorted times
  refine ⟨hgrid, ?_⟩
  apply List.ext_getElem
  · rw [length_resample, hlv]
  · intro i h1 h2
    have hi : i < times.length := by rw [← hlv]; exact h2
    have hti : i < (t_sorted times).length := by rw [hlt]; exact hi
    have hlb : lower_bound (t_sorted times) ((t_sorted times)[i]) = i := by
      have hval : (t_sorted times)[i] = (i : ℚ) * h := by
        have := hts i hi
        rw [List.getD_eq_getElem?_getD, List.getElem?_eq_getElem hti] at this
        simpa using this
      rw [hval]
      apply lower_bound_unique _ _ hasc i (by omega)
      · intro k hk
        rw [hts k (by omega)]
        have : (k : ℚ) < (i : ℚ) := by exact_mod_cast hk
        exact mul_lt_mul_of_pos_right this hh
      · intro k hk hkl
        rw [hlt] at hkl
        rw [hts k hkl]
        have : (i : ℚ) ≤ (k : ℚ) := by exact_mod_cast hk
        exact mul_le_mul_of_nonneg_right this (le_of_lt hh)
    have hvi : (v_sorted values times)[i] = (v_sorted values times).getD i 0 := by
      rw [List.getD_eq_getElem?_getD, List.getElem?_eq_getElem h2]
      rfl
    simp only [resample, v_interp, hgrid, List.getElem_map]
    simp only [interp_at, hlb]
    rcases Nat.eq_zero_or_pos i with h0 | h0
    · subst h0
      rw [if_pos rfl, hvi, headD_eq_getD]
    · have hne0 : i ≠ 0 := by omega
      have hneN : i ≠ (t_sorted times).length := by omega
      rw [if_neg hne0, if_neg hneN, hvi]
      have hval : (t_sorted times)[i] = (i : ℚ) * h := by
        have := hts i hi
        rw [List.getD_eq_getElem?_getD, List.getElem?_eq_getElem hti] at this
        simpa using this
      have hcast : ((i - 1 : ℕ) : ℚ) = (i : ℚ) - 1 := by
        rw [Nat.cast_sub (by omega)]
        simp
      rw [hval, hts i hi, hts (i - 1) (by omega), hcast]
      have hd : (i : ℚ) * h - ((i : ℚ) - 1) * h = h := by ring
      rw [hd, div_self (ne_of_gt hh)]
      ring

theorem resample_identity_of_even_witness :
    uniform_t (t_sorted [4, 0, 2]) = t_sorted [4, 0, 2] ∧
    resample [2, 1, 5] [4, 0, 2] = v_sorted [2, 1, 5] [4, 0, 2] :=
  resample_identity_of_even [2, 1, 5] [4, 0, 2] 2 (by decide) (by decide) (by norm_num)
    (by
      have hs : sorted_times [4, 0, 2] = [0, 2, 4] := by
        norm_num [sorted_times, sorted_idx, std_sort, List.range, List.range.loop,
          List.insertionSort, List.orderedInsert]
      intro i hi
      rw [hs]
      simp only [List.length_cons, List.length_nil] at hi
      interval_cases i <;> norm_num)

end Telemetry
